import Mathlib

/-!
Verification of the `delta` line-shape learning and delta-rendering engine
(`delta.py`): a shallow embedding of the chunk model, numeric format
derivation, shape matching, delta computation and the printer's separator
policy, together with theorems settling the specification claims.

Strings are modelled as `List Char`.  Python `int` values are modelled as
`Int`; Python `float` values are modelled as exact decimal fractions
(`Rat`), per the specification's "modulo the internal float formatting
matching the original token text's precision" proviso: in every flow of the
program a float is parsed from a decimal literal and formatted back with
exactly that many fractional digits, so exact decimal arithmetic agrees
with the code.  Fallible operations (Python exceptions) are modelled with
`Option`/`Except`.
-/

namespace Delta

/-- Python's `\s` / `string.whitespace` character class (ASCII part:
space, tab, newline, carriage return, vertical tab, form feed). -/
def pyIsSpace (c : Char) : Bool :=
  c = ' ' || c = '\t' || c = '\n' || c = '\r' || c = Char.ofNat 11 || c = Char.ofNat 12

/-- The character for a decimal digit value (`0 ↦ '0'`, ...). -/
def digitChar (d : Nat) : Char := Char.ofNat (48 + d)

/-- Numeric value of a digit character (`'0' ↦ 0`, ...). -/
def charVal (c : Char) : Nat := c.toNat - 48

/-- `parseNat cs` is the number denoted by the digit string `cs`
(the accumulator loop underlying Python's `int`). -/
def parseNat (cs : List Char) : Nat :=
  cs.foldl (fun a c => 10 * a + charVal c) 0

/-- Fuel-driven big-endian decimal digit expansion of a natural number;
`fuel` bounds the number of digits (any `fuel > n` is enough). -/
def natDigitsAux : Nat → Nat → List Char
  | 0, _ => []
  | _ + 1, 0 => []
  | fuel + 1, n + 1 => natDigitsAux fuel ((n + 1) / 10) ++ [digitChar ((n + 1) % 10)]

/-- Decimal digit string of a natural number, as Python's `str` renders it
(`0` renders as `"0"`). -/
def natDigits (n : Nat) : List Char :=
  if n = 0 then ['0'] else natDigitsAux (n + 1) n

/-- Pad `s` on the left with `c` up to width `w` (no-op if already wide). -/
def leftPad (c : Char) (w : Nat) (s : List Char) : List Char :=
  List.replicate (w - s.length) c ++ s

/-- A numeric value as the program manipulates it: a Python `int` or a
Python `float` (modelled as an exact decimal fraction). -/
inductive Value where
  | vint (i : Int)
  | vfloat (q : Rat)
deriving DecidableEq, Repr

/-- View a value as a rational (used when float arithmetic contaminates). -/
def Value.toRat : Value → Rat
  | .vint i => (i : Rat)
  | .vfloat q => q

/-- Python subtraction on mixed numbers: `int - int` stays `int`, any
`float` operand promotes the result to `float`. -/
def Value.sub : Value → Value → Value
  | .vint a, .vint b => .vint (a - b)
  | a, b => .vfloat (a.toRat - b.toRat)

/-- `v == 0` as Python evaluates it. -/
def Value.isZero : Value → Bool
  | .vint i => i = 0
  | .vfloat q => q = 0

/-- `v > 0` as Python evaluates it. -/
def Value.isPos : Value → Bool
  | .vint i => 0 < i
  | .vfloat q => 0 < q

/-- `v < 0` as Python evaluates it. -/
def Value.isNeg : Value → Bool
  | .vint i => i < 0
  | .vfloat q => q < 0

/-- Absolute value of a value, as a rational. -/
def Value.absRat (v : Value) : Rat := |v.toRat|

/-- Strip leading and trailing whitespace (Python `int(str)` / `float(str)`
accept surrounded whitespace). -/
def stripWs (cs : List Char) : List Char :=
  ((cs.dropWhile pyIsSpace).reverse.dropWhile pyIsSpace).reverse

/-- Python `int(s)` on the strings this program produces: whitespace-stripped
digit run (the program never feeds signed text, so signs are not modelled).
`none` models a raised `ValueError`. -/
def pyInt (cs : List Char) : Option Value :=
  let t := stripWs cs
  if t ≠ [] ∧ t.all Char.isDigit then some (.vint (parseNat t)) else none

/-- Python `float(s)` on the strings this program produces: a
whitespace-stripped decimal literal `whole.frac` with a single point
(the value is the exact decimal fraction). `none` models `ValueError`. -/
def pyFloat (cs : List Char) : Option Value :=
  let t := stripWs cs
  let whole := t.takeWhile (· ≠ '.')
  let rest := t.dropWhile (· ≠ '.')
  match rest with
  | '.' :: frac =>
    if (whole ≠ [] ∨ frac ≠ []) ∧ whole.all Char.isDigit ∧
        frac.all Char.isDigit then
      some (.vfloat ((parseNat whole : Rat) + (parseNat frac : Rat) / (10 : Rat) ^ frac.length))
    else none
  | _ => none

/-- `Parser.num`: decimal point present means `float`, else `int`.
`none` models the `ValueError` either conversion can raise. -/
def pyNum (cs : List Char) : Option Value :=
  if cs.contains '.' then pyFloat cs else pyInt cs

/-! ## Chunk model -/

/-- `NumberChunk`: the inferred rendering rule of one numeric field.
Source fields: `prefix` (here `pfx`), `align` (`'<'` ↦ `leftAlign = true`,
`''` ↦ `false`), `plus` (`'+'` ↦ `true`), `width` (the source switches it to
the string `'0N'` for zero-padding, modelled by the `zeroPad` flag), and
`fmt` (`''` ↦ `prec = none`, `'.Nf'` ↦ `prec = some N`). -/
structure NumberChunk where
  pfx : List Char
  leftAlign : Bool
  plus : Bool
  zeroPad : Bool
  width : Nat
  prec : Option Nat
deriving DecidableEq, Repr

/-- `NumberChunk.detect(spaces, n, first, flex=True)`: derive the rendering
rule from the whitespace run before the digits, the digit text and the
first-token flag. -/
def NumberChunk.detect (spaces n : List Char) (first : Bool)
    (flex : Bool := true) : NumberChunk :=
  let pfx : List Char := if spaces.isEmpty then [] else [' ']
  let width := if spaces.isEmpty then n.length else n.length + (spaces.length - 1)
  let la := spaces.isEmpty && !first
  if !n.contains '.' then
    let width := if !la && flex && width < 2 then 2 else width
    if n.length > 1 && n.head? == some '0' then
      ⟨pfx, false, true, true, width, none⟩
    else
      ⟨pfx, la, true, false, width, none⟩
  else
    let whole := n.takeWhile (· ≠ '.')
    let frac := (n.dropWhile (· ≠ '.')).drop 1
    let width := if !la && flex && width < frac.length + 3 then frac.length + 3 else width
    if whole.length > 1 && whole.head? == some '0' then
      ⟨pfx, false, true, true, width, some frac.length⟩
    else
      ⟨pfx, la, true, false, width, some frac.length⟩

/-- `NumberChunk.plain`: same rule with sign-forcing disabled. -/
def NumberChunk.plain (nc : NumberChunk) : NumberChunk := { nc with plus := false }

/-- Fixed-point body (Python's `f` presentation of the absolute value
`q ≥ 0` at precision `p`): digits of `round(q·10^p)` padded to at least
`p+1` digits, with the point inserted before the last `p` of them
(no point when `p = 0`).  Exact in every program flow, where `q·10^p`
is an integer. -/
def fixedBody (q : Rat) (p : Nat) : List Char :=
  let scaled : Int := ⌊q * (10 : Rat) ^ p + 1 / 2⌋
  let ds := leftPad '0' (p + 1) (natDigits scaled.toNat)
  if p = 0 then ds
  else ds.take (ds.length - p) ++ '.' :: ds.drop (ds.length - p)

/-- Number of fractional digits of `repr(float)`: smallest precision whose
fixed rendering is exact (bounded, as a double's shortest repr is). -/
def decScale (q : Rat) : Nat :=
  (((List.range 18).find? fun p => (q * (10 : Rat) ^ p).den == 1)).getD 17

/-- Python `repr` body of a nonnegative float: fixed rendering at its
natural decimal scale, with at least one fractional digit. -/
def floatRepr (q : Rat) : List Char := fixedBody q (max 1 (decScale q))

/-- Unsigned body of the field: the digit text of `|v|` under the chunk's
presentation (`prec = none`: `int` repr, or float `repr`; `prec = some p`:
fixed-point at precision `p`). -/
def NumberChunk.body (nc : NumberChunk) (v : Value) : List Char :=
  match nc.prec, v with
  | none, .vint i => natDigits i.natAbs
  | none, .vfloat q => floatRepr |q|
  | some p, .vint i => fixedBody (i.natAbs : Rat) p
  | some p, .vfloat q => fixedBody |q| p

/-- Python's format-spec padding: zero-pad puts the sign before the `'0'`
fill; `'<'` pads on the right with spaces; the default for numbers pads on
the left with spaces. -/
def padSpec (leftAlign zeroPad : Bool) (width : Nat) (sgn body : List Char) :
    List Char :=
  if zeroPad then sgn ++ List.replicate (width - sgn.length - body.length) '0' ++ body
  else if leftAlign then
    sgn ++ body ++ List.replicate (width - (sgn.length + body.length)) ' '
  else List.replicate (width - (sgn.length + body.length)) ' ' ++ sgn ++ body

/-- `'{0:...}'.format(value)` for the chunk's format spec, with the fixed
prefix in front (the prefix sits outside the padded field). -/
def NumberChunk.formatVal (nc : NumberChunk) (v : Value) : List Char :=
  let sgn : List Char := if v.isNeg then ['-'] else if nc.plus then ['+'] else []
  nc.pfx ++ padSpec nc.leftAlign nc.zeroPad nc.width sgn (nc.body v)

/-- ANSI green wrapper (`colors.green`). -/
def green (s : List Char) : List Char := "\x1b[32m".data ++ s ++ "\x1b[0m".data

/-- ANSI red wrapper (`colors.red`). -/
def red (s : List Char) : List Char := "\x1b[31m".data ++ s ++ "\x1b[0m".data

/-- `NumberChunk.colorize`: positive values green, negative red. -/
def NumberChunk.colorize (v : Value) (s : List Char) : List Char :=
  if v.isPos then green s else if v.isNeg then red s else s

/-- `NumberChunk.format` on the single value it consumes. -/
def NumberChunk.format1 (nc : NumberChunk) (v : Value) (useColors : Bool) :
    List Char :=
  let s := nc.formatVal v
  if useColors then NumberChunk.colorize v s else s

/-- A line chunk: fixed literal text (`StringChunk`) or a numeric field
(`NumberChunk`). -/
inductive Chunk where
  | str (s : List Char)
  | num (nc : NumberChunk)
deriving DecidableEq, Repr

/-- `plain` view of a chunk (identity on literals). -/
def Chunk.plain : Chunk → Chunk
  | .str s => .str s
  | .num nc => .num nc.plain

/-- `whitespace` view: literal characters blanked (whitespace preserved),
numeric chunks unchanged. -/
def Chunk.whitespaceView : Chunk → Chunk
  | .str s => .str (s.map fun c => if pyIsSpace c then c else ' ')
  | .num nc => .num nc

/-! ## Line shape (`Format`) and its matching pattern

The compiled pattern is the concatenation of each chunk's sub-pattern:
a literal chunk matches its escaped text, a numeric chunk matches
`(\s*[0-9]+(?:\.[0-9]+)?)` (the optional whitespace run is captured inside
the group).  Matching is modelled directly on the chunk list with Python's
leftmost-greedy backtracking semantics; like `re.match`, it is anchored at
the start of the line only and may leave a suffix unconsumed. -/

/-- The candidate strings a numeric group can consume at the head of `cs`,
in the order Python's backtracking engine tries them: `\s*` is forced
(maximal, since whitespace and digits are disjoint), then all digits with
the longest fraction, shorter fractions, no fraction, then fewer digits.
Each candidate is paired with the remaining suffix. -/
def numGroupCandidates (cs : List Char) : List (List Char × List Char) :=
  let ws := cs.takeWhile pyIsSpace
  let rest := cs.dropWhile pyIsSpace
  let ds := rest.takeWhile Char.isDigit
  let rest2 := rest.dropWhile Char.isDigit
  if ds.isEmpty then []
  else
    let fracCands :=
      match rest2 with
      | '.' :: r3 =>
        let fs := r3.takeWhile Char.isDigit
        let r4 := r3.dropWhile Char.isDigit
        (List.range fs.length).reverse.map fun m =>
          (ws ++ ds ++ '.' :: fs.take (m + 1), fs.drop (m + 1) ++ r4)
      | _ => []
    let intCands := (List.range ds.length).reverse.map fun j =>
      (ws ++ ds.take (j + 1), ds.drop (j + 1) ++ rest2)
    fracCands ++ intCands

/-- First `some` produced by `f` along the list (backtracking search). -/
def firstSome (f : α → Option β) : List α → Option β
  | [] => none
  | a :: as =>
    match f a with
    | some b => some b
    | none => firstSome f as

/-- Fuel-driven matcher for a chunk-list pattern against the head of a
line; returns the captured groups (one per numeric chunk, whitespace
included) and the unconsumed suffix.  Fuel equal to the number of chunks
suffices. -/
def matchChunksF : Nat → List Chunk → List Char → Option (List (List Char) × List Char)
  | _, [], cs => some ([], cs)
  | 0, _ :: _, _ => none
  | fuel + 1, .str s :: ks, cs =>
    if s.isPrefixOf cs then matchChunksF fuel ks (cs.drop s.length) else none
  | fuel + 1, .num _ :: ks, cs =>
    firstSome
      (fun gr => (matchChunksF fuel ks gr.2).map fun res => (gr.1 :: res.1, res.2))
      (numGroupCandidates cs)

/-- `fmt.regex.match(line)`: anchored-at-start match of the concatenated
chunk pattern. -/
def matchChunks (ks : List Chunk) (cs : List Char) :
    Option (List (List Char) × List Char) :=
  matchChunksF ks.length ks cs

/-- A learned line shape: ordered chunks plus the color flag. -/
structure Format where
  chunks : List Chunk
  colors : Bool
deriving DecidableEq, Repr

/-- `Format.plain`: plain view of every chunk, colors off. -/
def Format.plain (f : Format) : Format := ⟨f.chunks.map Chunk.plain, false⟩

/-- `Format.whitespace`: whitespace view of every chunk. -/
def Format.whitespaceView (f : Format) : Format :=
  ⟨f.chunks.map Chunk.whitespaceView, f.colors⟩

/-- Render a chunk list against a value list: a literal chunk consumes no
value, a numeric chunk pops the first remaining value.  `none` models the
`IndexError` raised by `values.pop(0)` on an exhausted list. -/
def formatChunks : List Chunk → List Value → Bool → Option (List Char)
  | [], _, _ => some []
  | .str s :: ks, vs, uc => (formatChunks ks vs uc).map (s ++ ·)
  | .num _ :: _, [], _ => none
  | .num nc :: ks, v :: vs, uc => (formatChunks ks vs uc).map (nc.format1 v uc ++ ·)

/-- `Format.format(values, use_colors=None)`: the concatenated chunk
renderings (the callee works on a copy of the list; `use_colors = none`
defaults to the shape's own flag). -/
def Format.format (f : Format) (vs : List Value)
    (useColors : Option Bool := none) : Option (List Char) :=
  formatChunks f.chunks vs (useColors.getD f.colors)

/-! ## Shape learner / matcher (`Parser`) -/

/-- The numeric token starting at the head of `cs`, if any: a maximal digit
run, extended by `.` and a maximal further digit run when present (the
greedy `[0-9]+(?:\.[0-9]+)?`).  Returns the token and the suffix. -/
def takeNumber (cs : List Char) : Option (List Char × List Char) :=
  let ds := cs.takeWhile Char.isDigit
  let r := cs.dropWhile Char.isDigit
  if ds.isEmpty then none
  else
    match r with
    | '.' :: r2 =>
      let fs := r2.takeWhile Char.isDigit
      if fs.isEmpty then some (ds, r)
      else some (ds ++ '.' :: fs, r2.dropWhile Char.isDigit)
    | _ => some (ds, r)

/-- Prepend text to the prefix of the first triple of a split result (or
to the trailing text when there is no triple). -/
def consPrefix (x : List Char) :
    List (List Char × List Char × List Char) × List Char →
    List (List Char × List Char × List Char) × List Char
  | ([], trail) => ([], x ++ trail)
  | ((p, s, n) :: ts, trail) => ((x ++ p, s, n) :: ts, trail)

/-- Fuel-driven model of
`re.split(r'(\s*)([0-9]+(?:\.[0-9]+)?)', line)` grouped in threes: the
list of `(prefix, spaces, number)` triples plus the trailing prefix.
A match begins at the start of the maximal whitespace run immediately
preceding the next digit (leftmost match of the greedy `\s*`).  Fuel
larger than the length of the line suffices. -/
def pySplitF : Nat → List Char →
    List (List Char × List Char × List Char) × List Char
  | 0, cs => ([], cs)
  | _ + 1, [] => ([], [])
  | fuel + 1, c :: cs =>
    if c.isDigit then
      match takeNumber (c :: cs) with
      | some (n, rest) =>
        let res := pySplitF fuel rest
        (([], [], n) :: res.1, res.2)
      | none => ([], c :: cs)
    else if pyIsSpace c then
      let ws := (c :: cs).takeWhile pyIsSpace
      let r := (c :: cs).dropWhile pyIsSpace
      match r with
      | [] => ([], ws)
      | d :: _ =>
        if d.isDigit then
          match takeNumber r with
          | some (n, rest) =>
            let res := pySplitF fuel rest
            (([], ws, n) :: res.1, res.2)
          | none => ([], c :: cs)
        else consPrefix ws (pySplitF fuel r)
    else consPrefix [c] (pySplitF fuel cs)

/-- The tokenization `Parser.parse` performs on a line. -/
def pySplit (cs : List Char) :
    List (List Char × List Char × List Char) × List Char :=
  pySplitF (cs.length + 1) cs

/-- The chunk list `Parser.parse` builds from the split triples: a literal
chunk for each non-empty prefix, then the detected numeric chunk; `first`
holds only for a number in the first triple with an empty prefix.  `detect`
is called without a `flex` argument, so its default `flex = true` applies
(the parser's own flag is not passed — as in the source). -/
def buildChunks : Bool → List (List Char × List Char × List Char) → List Chunk
  | _, [] => []
  | first, (p, s, n) :: ts =>
    (if p.isEmpty then [] else [.str p]) ++
      .num (NumberChunk.detect s n (first && p.isEmpty)) :: buildChunks false ts

/-- Parse every token value, propagating a conversion error
(the `self.num(...)` calls inside the loops). -/
def numAll : List (List Char) → Except String (List Value)
  | [] => .ok []
  | n :: ns =>
    match pyNum n with
    | some v =>
      match numAll ns with
      | .ok vs => .ok (v :: vs)
      | .error e => .error e
    | none => .error "ValueError"

/-- Parser configuration (`flex` is stored but, as in the source, never
consulted by `parse`). -/
structure ParserCfg where
  flex : Bool
  absolute : Bool
  useColors : Bool

/-- The shape registry: insertion-ordered shapes with their stored values. -/
abbrev Registry := List (Format × List Value)

/-- `Parser.parse(line)`: learn a new shape, register it with the observed
values, and return its plain view, the no-deltas sentinel and the values. -/
def Parser.parse (cfg : ParserCfg) (st : Registry) (line : List Char) :
    Except String (Registry × Format × Option (List Value) × List Value) :=
  let (ts, trail) := pySplit line
  let chunks := buildChunks true ts ++ (if trail.isEmpty then [] else [.str trail])
  let fmt : Format := ⟨chunks, cfg.useColors⟩
  match numAll (ts.map fun t => t.2.2) with
  | .ok values => .ok (st ++ [(fmt, values)], fmt.plain, none, values)
  | .error e => .error e

/-- One pass over the registry in discovery order: the first shape whose
pattern matches the head of the line wins; its groups are parsed, deltas
are taken against the stored values, and (in relative mode) the stored
values are replaced.  `none` when no shape matches. -/
def processEntries (cfg : ParserCfg) (line : List Char) :
    Registry → Except String (Option (Registry × Format × List Value × List Value))
  | [] => .ok none
  | (f, old) :: rest =>
    match matchChunks f.chunks line with
    | some (gs, _) =>
      match numAll gs with
      | .ok vals =>
        .ok (some ((f, if cfg.absolute then old else vals) :: rest, f,
          List.zipWith Value.sub vals old, vals))
      | .error e => .error e
    | none =>
      match processEntries cfg line rest with
      | .ok (some (reg, f2, ds, vs)) => .ok (some ((f, old) :: reg, f2, ds, vs))
      | .ok none => .ok none
      | .error e => .error e

/-- `Parser.process(line)`: match against the registry, else learn. -/
def Parser.process (cfg : ParserCfg) (st : Registry) (line : List Char) :
    Except String (Registry × Format × Option (List Value) × List Value) :=
  match processEntries cfg line st with
  | .ok (some (st2, f, ds, vs)) => .ok (st2, f, some ds, vs)
  | .ok none => Parser.parse cfg st line
  | .error e => .error e

/-! ## Separator & timestamp policy (`Printer`) -/

/-- Printer configuration; `now` models the current-time string returned
by `Printer.now()`. -/
structure PrinterCfg where
  timestamps : Bool
  separators : Bool
  orig : Bool
  skipZeros : Bool
  now : List Char

/-- Mutable printer state. -/
structure PrinterState where
  separatorsPending : Nat
  linesSinceSep : Nat
  multiline : Bool
deriving DecidableEq, Repr

/-- Initial printer state. -/
def PrinterState.init : PrinterState := ⟨0, 0, false⟩

/-- `Printer.separator()`: called once per detected chunk boundary. -/
def Printer.separator (cfg : PrinterCfg) (st : PrinterState) : PrinterState :=
  if cfg.separators then
    { st with
      multiline := if st.linesSinceSep = 1 then false else st.multiline
      separatorsPending := st.separatorsPending + 1 }
  else st

/-- `Printer.print_separator()`: the banner text. -/
def Printer.printSep (cfg : PrinterCfg) : List Char :=
  if cfg.timestamps then cfg.now ++ ['\n']
  else "--- ".data ++ cfg.now ++ ['\n']

/-- `Printer.print_separator_if_needed()`: flush pending separator
requests, emitting the banner only when more than one is pending, or one
is pending and the previous burst was multi-line. -/
def Printer.printSepIfNeeded (cfg : PrinterCfg) (st : PrinterState) :
    PrinterState × Option (List Char) :=
  let sp := st.separatorsPending
  let st := { st with separatorsPending := 0 }
  if 1 < sp then ({ st with linesSinceSep := 0 }, some (Printer.printSep cfg))
  else if sp ≠ 0 ∧ st.multiline then
    ({ st with linesSinceSep := 0 }, some (Printer.printSep cfg))
  else (st, none)

/-- `Printer.print_line`: timestamp prefix when enabled. -/
def Printer.printLine (cfg : PrinterCfg) (line : List Char) : List Char :=
  if cfg.timestamps then cfg.now ++ ": ".data ++ line else line

/-- `Printer.make_output`: the rendered physical lines for one processed
input line (zero, one or two).  A freshly learned line (`deltas = none`)
renders as-is; otherwise skip-zero suppression and the original-plus-delta
layout apply. -/
def Printer.makeOutput (cfg : PrinterCfg) (fmt : Format)
    (deltas : Option (List Value)) (values : List Value) :
    Except String (List (List Char)) :=
  match deltas with
  | none =>
    match fmt.format values with
    | some s => .ok [Printer.printLine cfg s]
    | none => .error "IndexError"
  | some ds =>
    let skipDelta := cfg.skipZeros && ds.all Value.isZero
    if cfg.orig then
      if values.length ≠ 0 then
        match fmt.plain.format values with
        | none => .error "IndexError"
        | some s1 =>
          if !skipDelta then
            match fmt.whitespaceView.format ds with
            | none => .error "IndexError"
            | some s2 =>
              .ok [Printer.printLine cfg s1, Printer.printLine cfg s2]
          else .ok [Printer.printLine cfg s1]
      else
        match fmt.format values with
        | some s => .ok [Printer.printLine cfg s]
        | none => .error "IndexError"
    else
      if !skipDelta then
        match fmt.format ds with
        | some s => .ok [Printer.printLine cfg s]
        | none => .error "IndexError"
      else .ok []

/-- `Printer.output`: mark a multi-line burst, render, and prepend the
banner when warranted; the pending count is flushed and the line counter
advanced only when some output was actually produced. -/
def Printer.output (cfg : PrinterCfg) (st : PrinterState) (fmt : Format)
    (deltas : Option (List Value)) (values : List Value) :
    Except String (PrinterState × List (List Char)) :=
  let st := if st.separatorsPending = 0 then { st with multiline := true } else st
  match Printer.makeOutput cfg fmt deltas values with
  | .error e => .error e
  | .ok chunks =>
    if chunks.isEmpty then .ok (st, [])
    else
      let stSep := Printer.printSepIfNeeded cfg st
      let chunks := match stSep.2 with | some s => s :: chunks | none => chunks
      .ok ({ stSep.1 with linesSinceSep := stSep.1.linesSinceSep + 1 }, chunks)

/-- Feed a list of lines through `Parser.process` and `Printer.output`
(the `run` loop without boundary markers), collecting everything written. -/
def runLines (pc : ParserCfg) (prc : PrinterCfg) (lines : List (List Char)) :
    Except String (List (List Char)) := do
  let mut reg : Registry := []
  let mut pst := PrinterState.init
  let mut out : List (List Char) := []
  for l in lines do
    let (reg2, fmt, ds, vs) ← Parser.process pc reg l
    let (pst2, chunks) ← Printer.output prc pst fmt ds vs
    reg := reg2
    pst := pst2
    out := out ++ chunks
  return out

/-- Shorthand: the character list of a string literal. -/
def strL (s : String) : List Char := s.data

/-- Number of numeric chunks in a chunk list. -/
def numericCount : List Chunk → Nat
  | [] => 0
  | .str _ :: ks => numericCount ks
  | .num _ :: ks => numericCount ks + 1

/-- Independent description of a render: the concatenation of the chunks'
renderings, the k-th numeric chunk consuming the k-th value, literal
chunks consuming none. -/
def specRender : List Chunk → List Value → Bool → List Char
  | [], _, _ => []
  | .str s :: ks, vs, uc => s ++ specRender ks vs uc
  | .num nc :: ks, vs, uc =>
    nc.format1 (vs.headD (.vint 0)) uc ++ specRender ks vs.tail uc

/-- Concatenated literal text of a chunk list (the full rendering of a
shape with no numeric chunks). -/
def literalText : List Chunk → List Char
  | [] => []
  | .str s :: ks => s ++ literalText ks
  | .num _ :: ks => literalText ks

/-- The shape of a numeric token: a nonempty digit run, or a nonempty
digit run, a point, and a nonempty digit run. -/
def tokenLike (t : List Char) : Prop :=
  (t ≠ [] ∧ t.all Char.isDigit = true) ∨
  ∃ d f, t = d ++ '.' :: f ∧ d ≠ [] ∧ f ≠ [] ∧
    d.all Char.isDigit = true ∧ f.all Char.isDigit = true

/-- Big-endian digit characters of `n` with no leading zeros (`0 ↦ []`):
the mathematical counterpart of `natDigits`, via `Nat.digits`. -/
def rawDigits (n : Nat) : List Char :=
  ((Nat.digits 10 n).map digitChar).reverse

/-- The pre-flex field width `detect` derives: the token length, plus the
absorbed leading spaces. -/
def effWidth (s n : List Char) : Nat :=
  if s.isEmpty then n.length else n.length + (s.length - 1)

/-- The tokens whose plain rendering reproduces their source text exactly:
the leading whitespace consists of plain spaces, a zero-padded token (its
integer part has a leading zero and more than one digit) is preceded by at
most one space, and the flex rule does not widen the field. -/
def goodToken (s n : List Char) (first : Bool) : Bool :=
  s.all (fun c => c = ' ') &&
  (if !n.contains '.' then
    if n.length > 1 && n.head? == some '0' then s.length ≤ 1
    else !((!s.isEmpty || first) && effWidth s n < 2)
  else
    let whole := n.takeWhile (· ≠ '.')
    let frac := (n.dropWhile (· ≠ '.')).drop 1
    if whole.length > 1 && whole.head? == some '0' then s.length ≤ 1
    else !((!s.isEmpty || first) && effWidth s n < frac.length + 3))

/-- `goodToken` over all split triples, threading the first-token flag the
way `Parser.parse` does. -/
def goodTriples : Bool → List (List Char × List Char × List Char) → Bool
  | _, [] => true
  | first, (p, s, n) :: ts =>
    goodToken s n (first && p.isEmpty) && goodTriples false ts

/-- Reassemble split triples into the original text. -/
def joinT : List (List Char × List Char × List Char) → List Char
  | [] => []
  | (p, s, n) :: ts => p ++ s ++ n ++ joinT ts

/-! ## Rendering lemmas -/

theorem formatChunks_spec (ks : List Chunk) (vs : List Value) (uc : Bool)
    (h : numericCount ks ≤ vs.length) :
    formatChunks ks vs uc = some (specRender ks vs uc) := by
  induction ks generalizing vs with
  | nil => rfl
  | cons k ks ih =>
    cases k with
    | str s =>
      rw [formatChunks, ih vs (by simpa [numericCount] using h)]
      rfl
    | num nc =>
      cases vs with
      | nil => simp [numericCount] at h
      | cons v vs =>
        rw [formatChunks, ih vs (by
          simp only [numericCount, List.length_cons] at h
          omega)]
        rfl

theorem formatChunks_take (ks : List Chunk) (vs : List Value) (uc : Bool)
    (h : numericCount ks ≤ vs.length) :
    formatChunks ks vs uc = formatChunks ks (vs.take (numericCount ks)) uc := by
  induction ks generalizing vs with
  | nil => rfl
  | cons k ks ih =>
    cases k with
    | str s =>
      simp only [numericCount] at h ⊢
      rw [formatChunks, formatChunks, ih vs h]
    | num nc =>
      cases vs with
      | nil => simp [numericCount] at h
      | cons v vs =>
        simp only [numericCount, List.length_cons] at h ⊢
        rw [List.take_succ_cons, formatChunks, formatChunks,
          ih vs (by omega)]

/-! ## Claims -/

/-- C2 (counterexample): with `showOriginal = false`, `skipZeroDeltas =
false` and colors disabled, the three inputs `"cpu: 10 20"`,
`"cpu: 12 19"`, `"cpu: 12 25"` produce `"cpu: 10 20"`, `"cpu: +2 -1"`,
`"cpu: +0 +6"` — the third line has a single space before `+0`, not the
two spaces the claim asserts. -/
theorem C2_scenario_counterexample :
    runLines ⟨true, false, false⟩ ⟨false, false, false, false, strL "NOW"⟩
        [strL "cpu: 10 20", strL "cpu: 12 19", strL "cpu: 12 25"] =
      .ok [strL "cpu: 10 20", strL "cpu: +2 -1", strL "cpu: +0 +6"] ∧
    strL "cpu: +0 +6" ≠ strL "cpu:  +0 +6" :=
  ⟨rfl, by decide⟩

/-- C2 (amended): the scenario's outputs are exactly `"cpu: 10 20"`,
`"cpu: +2 -1"` and `"cpu: +0 +6"` (the second numeric field's derived
width is 2, so the delta `+0` fills it with no extra padding). -/
theorem C2_scenario :
    runLines ⟨true, false, false⟩ ⟨false, false, false, false, strL "NOW"⟩
        [strL "cpu: 10 20", strL "cpu: 12 19", strL "cpu: 12 25"] =
      .ok [strL "cpu: 10 20", strL "cpu: +2 -1", strL "cpu: +0 +6"] :=
  rfl

/-- C3: a single value observed as 1000, 1001, 1002 yields deltas `+1, +1`
in relative mode (stored values overwritten each match) and `+1, +2` in
absolute mode (stored values stay at the original 1000 baseline). -/
theorem C3_delta_arithmetic :
    (do
        let r1 ← Parser.process ⟨true, false, false⟩ [] (strL "1000")
        let r2 ← Parser.process ⟨true, false, false⟩ r1.1 (strL "1001")
        let r3 ← Parser.process ⟨true, false, false⟩ r2.1 (strL "1002")
        (Except.ok (r2.2.2.1, r2.1.map Prod.snd, r3.2.2.1, r3.1.map Prod.snd) :
          Except String _)) =
      .ok (some [Value.vint 1], [[Value.vint 1001]],
           some [Value.vint 1], [[Value.vint 1002]]) ∧
    (do
        let r1 ← Parser.process ⟨true, true, false⟩ [] (strL "1000")
        let r2 ← Parser.process ⟨true, true, false⟩ r1.1 (strL "1001")
        let r3 ← Parser.process ⟨true, true, false⟩ r2.1 (strL "1002")
        (Except.ok (r2.2.2.1, r3.2.2.1, r3.1.map Prod.snd) :
          Except String _)) =
      .ok (some [Value.vint 1], some [Value.vint 2], [[Value.vint 1000]]) :=
  ⟨rfl, rfl⟩

/-- C5 (counterexample): the shape learned from `"a 1"` compiles to the
pattern `a(\s*[0-9]+(?:\.[0-9]+)?)`; on the line `"a 12 grams"` it matches
only the proper prefix `"a 12"` (suffix `" grams"` unconsumed), yet
`process` treats the line as a match for that shape, returning deltas. -/
theorem C5_prefix_match_counterexample :
    matchChunks [Chunk.str ['a'], Chunk.num ⟨[' '], false, true, false, 2, none⟩]
        (strL "a 12 grams") = some ([strL " 12"], strL " grams") ∧
    strL " grams" ≠ [] ∧
    (do
        let r ← Parser.process ⟨true, false, false⟩ [] (strL "a 1")
        Parser.process ⟨true, false, false⟩ r.1 (strL "a 12 grams")) =
      .ok ([(⟨[Chunk.str ['a'], Chunk.num ⟨[' '], false, true, false, 2, none⟩],
              false⟩, [Value.vint 12])],
           ⟨[Chunk.str ['a'], Chunk.num ⟨[' '], false, true, false, 2, none⟩],
             false⟩,
           some [Value.vint 11], [Value.vint 12]) :=
  ⟨rfl, by decide, rfl⟩

/-- C7 (counterexample): for digit text `"5"` with no leading whitespace
and not first on the line, the derived rule is left-justified with width
`1` even under flex — flex widening applies only to right-aligned fields,
so the claim's "extended to 2 when flex mode is on" is false here. -/
theorem C7_flex_counterexample :
    NumberChunk.detect [] ['5'] false true =
      ⟨[], true, true, false, 1, none⟩ ∧
    (NumberChunk.detect [] ['5'] false true).width ≠ 2 :=
  ⟨rfl, by decide⟩

/-- C10 (counterexample): a format with one numeric chunk, applied to the
empty value list, does not return a rendering at all (`values.pop(0)`
raises `IndexError`), so the claim's "for every value list" fails. -/
theorem C10_starved_counterexample :
    Format.format ⟨[Chunk.num ⟨[], true, true, false, 1, none⟩], false⟩ []
      none = none :=
  rfl

/-- C10 (amended): for every format and every value list holding at least
as many values as the format has numeric chunks, `Format.format` returns
the concatenation of its chunks' renderings, the k-th numeric chunk
consuming the k-th value in left-to-right order and literal chunks
consuming none; values beyond those consumed are ignored.  (In the model
the caller's list is immutable — the source obtains the same effect by
copying the list before popping from it.) -/
theorem C10_format_concat (ks : List Chunk) (c : Bool) (vs : List Value)
    (uc : Option Bool) (h : numericCount ks ≤ vs.length) :
    Format.format ⟨ks, c⟩ vs uc = some (specRender ks vs (uc.getD c)) ∧
    Format.format ⟨ks, c⟩ vs uc =
      Format.format ⟨ks, c⟩ (vs.take (numericCount ks)) uc := by
  exact ⟨formatChunks_spec ks vs _ h, formatChunks_take ks vs _ h⟩

/-- C10 witness: a concrete format rendered against a longer-than-needed
value list. -/
theorem C10_format_concat_witness :
    Format.format ⟨[Chunk.str ['h'], Chunk.num ⟨[' '], false, true, false, 2, none⟩],
        false⟩ [Value.vint 3, Value.vint 9] none =
      some (specRender
        [Chunk.str ['h'], Chunk.num ⟨[' '], false, true, false, 2, none⟩]
        [Value.vint 3, Value.vint 9] false) :=
  (C10_format_concat
    [Chunk.str ['h'], Chunk.num ⟨[' '], false, true, false, 2, none⟩]
    false [Value.vint 3, Value.vint 9] none (by decide)).1

theorem all_digits_not_contains_dot (n : List Char)
    (hd : n.all Char.isDigit = true) : n.contains '.' = false := by
  induction n with
  | nil => rfl
  | cons c cs ih =>
    simp only [List.all_cons, Bool.and_eq_true] at hd
    have hne : ('.' == c) = false := by
      refine beq_eq_false_iff_ne.mpr ?_
      intro h
      subst h
      exact absurd hd.1 (by decide)
    rw [List.contains_cons, ih hd.2, hne]
    rfl

/-- C7 (amended): for nonempty integer digit text `n` (no decimal point):
with no leading whitespace and not first on the line the rule is
left-justified with width exactly `len(n)` — flex never widens a
left-justified field; with leading whitespace the prefix is one space and
the width is `len(n) + len(spaces) - 1` except that flex widens it to 2
when smaller; a leading zero (`len(n) > 1`) instead yields a zero-padded,
right-aligned field of the unwidened width. -/
theorem C7_detect_rules (n spaces : List Char) (first flex : Bool)
    (hd : n.all Char.isDigit = true) :
    (¬(1 < n.length ∧ n.head? = some '0') →
      NumberChunk.detect [] n false flex =
        ⟨[], true, true, false, n.length, none⟩) ∧
    (spaces ≠ [] → ¬(1 < n.length ∧ n.head? = some '0') →
      NumberChunk.detect spaces n first flex =
        ⟨[' '], false, true, false,
          if flex ∧ n.length + (spaces.length - 1) < 2 then 2
          else n.length + (spaces.length - 1), none⟩) ∧
    (1 < n.length ∧ n.head? = some '0' →
      NumberChunk.detect spaces n first flex =
        ⟨if spaces.isEmpty then [] else [' '], false, true, true,
          if spaces.isEmpty then n.length else n.length + (spaces.length - 1),
          none⟩) := by
  have hdot := all_digits_not_contains_dot n hd
  have hmem : ¬('.' ∈ n) := fun hm =>
    absurd (List.all_eq_true.mp hd _ hm) (by decide)
  refine ⟨fun hz => ?_, fun hs hz => ?_, fun hz => ?_⟩
  · have hzb : (decide (n.length > 1) && (n.head? == some '0')) = false := by
      by_cases h1 : 1 < n.length
      · have h2 : ¬n.head? = some '0' := fun h => hz ⟨h1, h⟩
        simp [h2]
      · simp [h1]
    simp [NumberChunk.detect, hdot, hmem, hzb]
  · have hse : spaces.isEmpty = false := by
      cases spaces with
      | nil => exact absurd rfl hs
      | cons a as => rfl
    have hzb : (decide (n.length > 1) && (n.head? == some '0')) = false := by
      by_cases h1 : 1 < n.length
      · have h2 : ¬n.head? = some '0' := fun h => hz ⟨h1, h⟩
        simp [h2]
      · simp [h1]
    cases flex with
    | false => simp [NumberChunk.detect, hdot, hmem, hzb, hse]
    | true =>
      by_cases h2 : n.length + (spaces.length - 1) < 2
      · simp [NumberChunk.detect, hdot, hmem, hzb, hse, h2]
      · simp [NumberChunk.detect, hdot, hmem, hzb, hse, h2]
  · have hzb : (decide (n.length > 1) && (n.head? == some '0')) = true := by
      simp [hz.1, hz.2]
    have h2 : 1 < n.length := hz.1
    cases hse : spaces.isEmpty with
    | true =>
      have hw : ¬n.length < 2 := by omega
      simp [NumberChunk.detect, hdot, hmem, hzb, hse, hw]
    | false =>
      have hw : ¬n.length + (spaces.length - 1) < 2 := by omega
      simp [NumberChunk.detect, hdot, hmem, hzb, hse, hw]

/-- C7 witness: `detect("  ", "999", first=False)` yields prefix one
space and width 4, and `detect("", "7", first=False)` is left-justified
with width 1. -/
theorem C7_detect_rules_witness :
    NumberChunk.detect (strL "  ") (strL "999") false true =
      ⟨[' '], false, true, false, 4, none⟩ ∧
    NumberChunk.detect [] ['7'] false true =
      ⟨[], true, true, false, 1, none⟩ := by
  constructor
  · have h := (C7_detect_rules (strL "999") (strL "  ") false true
      (by decide)).2.1 (by decide) (by decide)
    rw [h]
    decide
  · have h := (C7_detect_rules ['7'] [] false true (by decide)).1 (by decide)
    rw [h]
    decide

/-- C6: on an `output` call that produces at least one rendered line, the
banner is emitted (prepended) exactly when `separatorsPending > 1`, or
`separatorsPending = 1` and the multi-line flag is set; producing output
resets `separatorsPending` to 0 and advances the line counter (to 1 after
a banner, since the banner zeroes it first).  A fully suppressed line
leaves both `separatorsPending` and `linesSinceSep` unchanged. -/
theorem C6_separator_policy (cfg : PrinterCfg) (st : PrinterState)
    (fmt : Format) (ds : Option (List Value)) (vs : List Value)
    (st2 : PrinterState) (out : List (List Char))
    (h : Printer.output cfg st fmt ds vs = .ok (st2, out)) :
    (out = [] → st2.separatorsPending = st.separatorsPending ∧
      st2.linesSinceSep = st.linesSinceSep) ∧
    (out ≠ [] →
      st2.separatorsPending = 0 ∧
      ∃ rendered, Printer.makeOutput cfg fmt ds vs = .ok rendered ∧
        rendered ≠ [] ∧
        (if 1 < st.separatorsPending ∨
            (st.separatorsPending = 1 ∧ st.multiline = true)
         then out = Printer.printSep cfg :: rendered ∧ st2.linesSinceSep = 1
         else out = rendered ∧
           st2.linesSinceSep = st.linesSinceSep + 1)) := by
  cases hmo : Printer.makeOutput cfg fmt ds vs with
  | error e =>
    unfold Printer.output at h
    rw [hmo] at h
    exact Except.noConfusion h
  | ok rendered =>
    unfold Printer.output at h
    rw [hmo] at h
    dsimp only at h
    cases rendered with
    | nil =>
      rw [List.isEmpty_nil] at h
      simp only [eq_self_iff_true, if_true] at h
      injection h with h
      rw [Prod.mk.injEq] at h
      obtain ⟨h1, h2⟩ := h
      subst h1
      subst h2
      refine ⟨fun _ => ?_, fun hne => absurd rfl hne⟩
      by_cases hp0 : st.separatorsPending = 0 <;> simp [hp0]
    | cons r rs =>
      rw [List.isEmpty_cons] at h
      rw [if_neg (by simp)] at h
      by_cases hp0 : st.separatorsPending = 0
      · rw [if_pos hp0] at h
        simp only [Printer.printSepIfNeeded, hp0] at h
        rw [if_neg (by omega), if_neg (by simp [hp0])] at h
        injection h with h
        rw [Prod.mk.injEq] at h
        obtain ⟨h1, h2⟩ := h
        subst h1
        subst h2
        refine ⟨fun hc => List.noConfusion hc, fun _ => ?_⟩
        refine ⟨rfl, r :: rs, rfl, by simp, ?_⟩
        rw [if_neg (by simp [hp0])]
        exact ⟨rfl, rfl⟩
      · rw [if_neg hp0] at h
        simp only [Printer.printSepIfNeeded] at h
        by_cases hgt : 1 < st.separatorsPending
        · rw [if_pos hgt] at h
          injection h with h
          rw [Prod.mk.injEq] at h
          obtain ⟨h1, h2⟩ := h
          subst h1
          subst h2
          refine ⟨fun hc => List.noConfusion hc, fun _ => ?_⟩
          refine ⟨rfl, r :: rs, rfl, by simp, ?_⟩
          rw [if_pos (Or.inl hgt)]
          exact ⟨rfl, rfl⟩
        · have hp1 : st.separatorsPending = 1 := by omega
          rw [if_neg hgt] at h
          by_cases hml : st.multiline = true
          · rw [if_pos (by simp [hp0, hml])] at h
            injection h with h
            rw [Prod.mk.injEq] at h
            obtain ⟨h1, h2⟩ := h
            subst h1
            subst h2
            refine ⟨fun hc => List.noConfusion hc, fun _ => ?_⟩
            refine ⟨rfl, r :: rs, rfl, by simp, ?_⟩
            rw [if_pos (Or.inr ⟨hp1, hml⟩)]
            exact ⟨rfl, rfl⟩
          · rw [if_neg (by simp [hml])] at h
            injection h with h
            rw [Prod.mk.injEq] at h
            obtain ⟨h1, h2⟩ := h
            subst h1
            subst h2
            refine ⟨fun hc => List.noConfusion hc, fun _ => ?_⟩
            refine ⟨rfl, r :: rs, rfl, by simp, ?_⟩
            rw [if_neg (by
              intro hc
              rcases hc with hc | hc
              · omega
              · exact hml hc.2)]
            exact ⟨rfl, rfl⟩

/-- C6 witness: with two pending separator requests, an output call that
renders the literal line `"x"` emits the banner first and resets the
pending count. -/
theorem C6_separator_policy_witness :
    (⟨0, 1, false⟩ : PrinterState).separatorsPending = 0 ∧
    ∃ rendered,
      Printer.makeOutput ⟨false, true, false, false, strL "NOW"⟩
        ⟨[Chunk.str ['x']], false⟩ none [] = .ok rendered ∧
      rendered ≠ [] ∧
      (if 1 < (⟨2, 5, false⟩ : PrinterState).separatorsPending ∨
          ((⟨2, 5, false⟩ : PrinterState).separatorsPending = 1 ∧
            (⟨2, 5, false⟩ : PrinterState).multiline = true)
       then [strL "--- NOW\n", ['x']] =
          Printer.printSep ⟨false, true, false, false, strL "NOW"⟩ :: rendered ∧
          (⟨0, 1, false⟩ : PrinterState).linesSinceSep = 1
       else [strL "--- NOW\n", ['x']] = rendered ∧
          (⟨0, 1, false⟩ : PrinterState).linesSinceSep =
            (⟨2, 5, false⟩ : PrinterState).linesSinceSep + 1) :=
  (C6_separator_policy ⟨false, true, false, false, strL "NOW"⟩ ⟨2, 5, false⟩
      ⟨[Chunk.str ['x']], false⟩ none [] ⟨0, 1, false⟩
      [strL "--- NOW\n", ['x']] rfl).2 (List.cons_ne_nil _ _)

theorem processEntries_cases (cfg : ParserCfg) (line : List Char) :
    ∀ (st : Registry) (r : Option (Registry × Format × List Value × List Value)),
      processEntries cfg line st = .ok r →
      r = none ∨
      ∃ pre e suf vals ds, st = pre ++ e :: suf ∧
        r = some (pre ++ (e.1, if cfg.absolute then e.2 else vals) :: suf,
          e.1, ds, vals) := by
  intro st
  induction st with
  | nil =>
    intro r h
    rw [processEntries] at h
    injection h with h
    exact Or.inl h.symm
  | cons hd rest ih =>
    intro r h
    obtain ⟨f, old⟩ := hd
    rw [processEntries] at h
    cases hm : matchChunks f.chunks line with
    | some gr =>
      obtain ⟨gs, rest2⟩ := gr
      rw [hm] at h
      dsimp only at h
      cases hn : numAll gs with
      | ok vals =>
        rw [hn] at h
        injection h with h
        refine Or.inr ⟨[], (f, old), rest, vals, List.zipWith Value.sub vals old,
          rfl, h.symm⟩
      | error e =>
        rw [hn] at h
        dsimp only at h
        exact Except.noConfusion h
    | none =>
      rw [hm] at h
      dsimp only at h
      cases hpe : processEntries cfg line rest with
      | ok r2 =>
        rw [hpe] at h
        cases r2 with
        | none =>
          injection h with h
          exact Or.inl h.symm
        | some tup =>
          obtain ⟨reg, f2, ds, vs⟩ := tup
          injection h with h
          rcases ih _ hpe with hnone | ⟨pre, e, suf, vals, ds2, hst, hr⟩
          · exact Option.noConfusion hnone
          · injection hr with hr
            have hreg : reg =
                pre ++ (e.1, if cfg.absolute = true then e.2 else vals) :: suf :=
              congrArg Prod.fst hr
            have hf2 : f2 = e.1 := congrArg (fun x => x.2.1) hr
            have hds : ds = ds2 := congrArg (fun x => x.2.2.1) hr
            have hvs : vs = vals := congrArg (fun x => x.2.2.2) hr
            refine Or.inr ⟨(f, old) :: pre, e, suf, vals, ds2, ?_, ?_⟩
            · rw [hst, List.cons_append]
            · rw [← h, hreg, hf2, hds, hvs, List.cons_append]
      | error e =>
        rw [hpe] at h
        dsimp only at h
        exact Except.noConfusion h

/-- C9: every `process` call either keeps the registered shapes unchanged —
some shape matched; at most that shape's stored values are replaced, and
the registry is fully untouched in absolute mode — or appends exactly one
newly learned shape at the end; shapes are never removed. -/
theorem C9_registry_evolution (cfg : ParserCfg) (st : Registry)
    (line : List Char) (res : Registry × Format × Option (List Value) × List Value)
    (h : Parser.process cfg st line = .ok res) :
    (∃ pre e suf vals,
      st = pre ++ e :: suf ∧
      res.1 = pre ++ (e.1, if cfg.absolute then e.2 else vals) :: suf ∧
      res.1.map Prod.fst = st.map Prod.fst ∧
      (cfg.absolute = true → res.1 = st) ∧ res.2.2.1 ≠ none) ∨
    (∃ f v, res.1 = st ++ [(f, v)] ∧ res.2.2.1 = none) := by
  rw [Parser.process] at h
  cases hpe : processEntries cfg line st with
  | ok r =>
    rw [hpe] at h
    cases r with
    | none =>
      rw [Parser.parse] at h
      dsimp only at h
      cases hn : numAll ((pySplit line).1.map fun t => t.2.2) with
      | ok values =>
        rw [hn] at h
        dsimp only at h
        injection h with h
        subst h
        exact Or.inr ⟨_, _, rfl, rfl⟩
      | error e =>
        rw [hn] at h
        dsimp only at h
        exact Except.noConfusion h
    | some tup =>
      obtain ⟨st2, f, ds, vs⟩ := tup
      injection h with h
      rcases processEntries_cases cfg line st _ hpe with hnone | hmain
      · exact Option.noConfusion hnone
      · obtain ⟨pre, e, suf, vals, ds2, hst, hr⟩ := hmain
        injection hr with hr
        have h1 : st2 = pre ++ (e.1, if cfg.absolute then e.2 else vals) :: suf :=
          congrArg Prod.fst hr
        have h2 : f = e.1 := congrArg (fun x => x.2.1) hr
        refine Or.inl ⟨pre, e, suf, vals, hst, ?_, ?_, ?_, ?_⟩
        · rw [← h, h1]
        · rw [← h, h1, hst]
          simp
        · intro habs
          rw [← h, h1, hst, habs, if_pos rfl]
        · rw [← h]
          simp
  | error e =>
    rw [hpe] at h
    dsimp only at h
    exact Except.noConfusion h

/-- C9 witness: processing `"a"` against an empty registry appends exactly
one newly learned shape. -/
theorem C9_registry_evolution_witness :
    (∃ pre e suf vals,
        ([] : Registry) = pre ++ e :: suf ∧
        [((⟨[Chunk.str ['a']], false⟩ : Format), ([] : List Value))] =
          pre ++ (e.1, if (⟨true, false, false⟩ : ParserCfg).absolute = true
            then e.2 else vals) :: suf ∧
        ([((⟨[Chunk.str ['a']], false⟩ : Format), ([] : List Value))] :
            Registry).map Prod.fst = ([] : Registry).map Prod.fst ∧
        ((⟨true, false, false⟩ : ParserCfg).absolute = true →
          [((⟨[Chunk.str ['a']], false⟩ : Format), ([] : List Value))] =
            ([] : Registry)) ∧
        (none : Option (List Value)) ≠ none) ∨
    (∃ f v, [((⟨[Chunk.str ['a']], false⟩ : Format), ([] : List Value))] =
        ([] : Registry) ++ [(f, v)] ∧ (none : Option (List Value)) = none) :=
  C9_registry_evolution ⟨true, false, false⟩ [] (strL "a")
    ([(⟨[Chunk.str ['a']], false⟩, [])], Format.plain ⟨[Chunk.str ['a']], false⟩,
      none, []) rfl

/-! ## Matcher lemmas: the shape of captured groups -/

theorem firstSome_eq_some {f : α → Option β} {l : List α} {b : β}
    (h : firstSome f l = some b) : ∃ a ∈ l, f a = some b := by
  induction l with
  | nil => exact Option.noConfusion h
  | cons a as ih =>
    rw [firstSome] at h
    cases hfa : f a with
    | some b2 =>
      rw [hfa] at h
      injection h with h
      exact ⟨a, List.mem_cons_self a as, h ▸ hfa⟩
    | none =>
      rw [hfa] at h
      obtain ⟨a2, hmem, hfa2⟩ := ih h
      exact ⟨a2, List.mem_cons_of_mem a hmem, hfa2⟩

theorem numGroupCandidates_shape (cs : List Char) (g r : List Char)
    (h : (g, r) ∈ numGroupCandidates cs) :
    ∃ ws t, g = ws ++ t ∧ ws.all pyIsSpace = true ∧ tokenLike t := by
  have hwsAll : (cs.takeWhile pyIsSpace).all pyIsSpace = true := by
    rw [List.all_eq_true]
    intro c hc
    exact List.mem_takeWhile_imp hc
  have hdsAll :
      ((cs.dropWhile pyIsSpace).takeWhile Char.isDigit).all Char.isDigit = true := by
    rw [List.all_eq_true]
    intro c hc
    exact List.mem_takeWhile_imp hc
  unfold numGroupCandidates at h
  dsimp only at h
  split at h
  · exact absurd h (List.not_mem_nil _)
  · rename_i hde
    have hdsne : (cs.dropWhile pyIsSpace).takeWhile Char.isDigit ≠ [] := by
      intro hnil
      rw [hnil] at hde
      exact hde rfl
    rcases List.mem_append.mp h with hf | hi
    · split at hf
      · rename_i r3 heq
        rcases List.mem_map.mp hf with ⟨m, hm, hpair⟩
        have hmlt : m < (r3.takeWhile Char.isDigit).length :=
          List.mem_range.mp (List.mem_reverse.mp hm)
        have hg := (congrArg Prod.fst hpair).symm
        dsimp only at hg
        rw [List.append_assoc] at hg
        refine ⟨cs.takeWhile pyIsSpace,
          (cs.dropWhile pyIsSpace).takeWhile Char.isDigit ++
            '.' :: (r3.takeWhile Char.isDigit).take (m + 1), hg, hwsAll, ?_⟩
        refine Or.inr ⟨_, _, rfl, hdsne, ?_, hdsAll, ?_⟩
        · have : ((r3.takeWhile Char.isDigit).take (m + 1)).length = m + 1 := by
            rw [List.length_take]
            omega
          intro hnil
          rw [hnil] at this
          exact Nat.noConfusion this
        · rw [List.all_eq_true]
          intro c hc
          exact List.mem_takeWhile_imp (List.take_subset _ _ hc)
      · exact absurd hf (List.not_mem_nil _)
    · rcases List.mem_map.mp hi with ⟨j, hj, hpair⟩
      have hjlt : j < ((cs.dropWhile pyIsSpace).takeWhile Char.isDigit).length :=
        List.mem_range.mp (List.mem_reverse.mp hj)
      have hg := (congrArg Prod.fst hpair).symm
      dsimp only at hg
      refine ⟨cs.takeWhile pyIsSpace,
        ((cs.dropWhile pyIsSpace).takeWhile Char.isDigit).take (j + 1), hg,
        hwsAll, Or.inl ⟨?_, ?_⟩⟩
      · have : (((cs.dropWhile pyIsSpace).takeWhile Char.isDigit).take
            (j + 1)).length = j + 1 := by
          rw [List.length_take]
          omega
        intro hnil
        rw [hnil] at this
        exact Nat.noConfusion this
      · rw [List.all_eq_true]
        intro c hc
        exact List.mem_takeWhile_imp (List.take_subset _ _ hc)

theorem matchChunksF_groups :
    ∀ (ks : List Chunk) (fuel : Nat) (cs : List Char)
      (gs : List (List Char)) (r : List Char),
      matchChunksF fuel ks cs = some (gs, r) →
      ∀ g ∈ gs, ∃ ws t, g = ws ++ t ∧ ws.all pyIsSpace = true ∧ tokenLike t := by
  intro ks
  induction ks with
  | nil =>
    intro fuel cs gs r h g hg
    cases fuel with
    | zero =>
      rw [matchChunksF] at h
      injection h with h
      injection h with h1 h2
      rw [← h1] at hg
      exact absurd hg (List.not_mem_nil _)
    | succ fuel =>
      rw [matchChunksF] at h
      injection h with h
      injection h with h1 h2
      rw [← h1] at hg
      exact absurd hg (List.not_mem_nil _)
  | cons k ks ih =>
    intro fuel cs gs r h g hg
    cases fuel with
    | zero => exact Option.noConfusion h
    | succ fuel =>
      cases k with
      | str s =>
        rw [matchChunksF] at h
        split at h
        · exact ih fuel _ gs r h g hg
        · exact Option.noConfusion h
      | num nc =>
        rw [matchChunksF] at h
        obtain ⟨cand, hcmem, hcval⟩ := firstSome_eq_some h
        cases hrec : matchChunksF fuel ks cand.2 with
        | none =>
          rw [hrec] at hcval
          exact Option.noConfusion hcval
        | some res =>
          rw [hrec] at hcval
          injection hcval with hcval
          have hgs : gs = cand.1 :: res.1 := (congrArg Prod.fst hcval).symm
          rcases List.mem_cons.mp (hgs ▸ hg) with hghead | hgtail
          · subst hghead
            exact numGroupCandidates_shape cs cand.1 cand.2
              (by rcases cand with ⟨c1, c2⟩; exact hcmem)
          · exact ih fuel cand.2 res.1 res.2 (by rw [hrec]) g hgtail

theorem matchChunks_groups (ks : List Chunk) (cs : List Char)
    (gs : List (List Char)) (r : List Char)
    (h : matchChunks ks cs = some (gs, r)) :
    ∀ g ∈ gs, ∃ ws t, g = ws ++ t ∧ ws.all pyIsSpace = true ∧ tokenLike t :=
  matchChunksF_groups ks ks.length cs gs r h

/-! ## Parsing captured groups always succeeds -/

theorem digit_not_space (c : Char) (h : c.isDigit = true) :
    pyIsSpace c = false := by
  cases hsp : pyIsSpace c with
  | false => rfl
  | true =>
    simp only [pyIsSpace, Bool.or_eq_true, decide_eq_true_eq] at hsp
    rcases hsp with ((((h1 | h1) | h1) | h1) | h1) | h1 <;> subst h1 <;>
      exact absurd h (by decide)

theorem dropWhile_append_of_all {p : Char → Bool} (ws t : List Char)
    (h : ws.all p = true) : (ws ++ t).dropWhile p = t.dropWhile p := by
  induction ws with
  | nil => rfl
  | cons c cs ih =>
    simp only [List.all_cons, Bool.and_eq_true] at h
    simp [List.dropWhile_cons, h.1, ih h.2]

theorem dropWhile_eq_self_of_head {p : Char → Bool} (t : List Char)
    (h : ∀ c, t.head? = some c → p c = false) : t.dropWhile p = t := by
  cases t with
  | nil => rfl
  | cons c cs => simp [List.dropWhile_cons, h c rfl]

theorem stripWs_space_append (ws t : List Char) (hws : ws.all pyIsSpace = true)
    (hhead : ∀ c, t.head? = some c → pyIsSpace c = false)
    (hlast : ∀ c, t.reverse.head? = some c → pyIsSpace c = false) :
    stripWs (ws ++ t) = t := by
  unfold stripWs
  rw [dropWhile_append_of_all ws t hws, dropWhile_eq_self_of_head t hhead,
    dropWhile_eq_self_of_head t.reverse hlast, List.reverse_reverse]

theorem all_digits_head_not_space (t : List Char)
    (hall : t.all Char.isDigit = true) :
    ∀ c, t.head? = some c → pyIsSpace c = false := by
  intro c hc
  cases t with
  | nil => exact Option.noConfusion hc
  | cons a as =>
    injection hc with hc
    subst hc
    simp only [List.all_cons, Bool.and_eq_true] at hall
    exact digit_not_space _ hall.1

theorem contains_eq_false_of_not_mem {a : Char} {l : List Char}
    (h : ¬a ∈ l) : l.contains a = false := by
  cases hc : l.contains a with
  | false => rfl
  | true => exact absurd (List.elem_iff.mp hc) h

theorem takeWhile_ne_dot_append (d f : List Char)
    (hd : d.all Char.isDigit = true) :
    (d ++ '.' :: f).takeWhile (· ≠ '.') = d ∧
    (d ++ '.' :: f).dropWhile (· ≠ '.') = '.' :: f := by
  induction d with
  | nil => constructor <;> simp [List.takeWhile_cons, List.dropWhile_cons]
  | cons c cs ih =>
    simp only [List.all_cons, Bool.and_eq_true] at hd
    have hne : c ≠ '.' := by
      intro hc
      subst hc
      exact absurd hd.1 (by decide)
    obtain ⟨ih1, ih2⟩ := ih hd.2
    simp only [ne_eq, decide_not] at ih1 ih2
    constructor
    · simp [List.takeWhile_cons, hne, ih1]
    · simp [List.dropWhile_cons, hne, ih2]

/-- Every string of the form the numeric group pattern captures — an
optional whitespace run followed by a numeric token — parses under
`Parser.num`: the decimal-point test routes it to `int` or `float`, and
both conversions accept the leading whitespace. -/
theorem pyNum_group_isSome (ws t : List Char) (hws : ws.all pyIsSpace = true)
    (ht : tokenLike t) : (pyNum (ws ++ t)).isSome = true := by
  have hwsDot : ¬('.' ∈ ws) := by
    intro hmem
    have := List.all_eq_true.mp hws _ hmem
    exact absurd this (by decide)
  rcases ht with ⟨hne, hall⟩ | ⟨d, f, hteq, hdne, hfne, hdall, hfall⟩
  · have htDot : ¬('.' ∈ t) := by
      intro hmem
      have := List.all_eq_true.mp hall _ hmem
      exact absurd this (by decide)
    have hcont : (ws ++ t).contains '.' = false :=
      contains_eq_false_of_not_mem (by
        intro hmem
        rcases List.mem_append.mp hmem with hm | hm
        · exact hwsDot hm
        · exact htDot hm)
    rw [pyNum, hcont]
    simp only [Bool.false_eq_true, if_false]
    rw [pyInt]
    have hstrip : stripWs (ws ++ t) = t := by
      refine stripWs_space_append ws t hws (all_digits_head_not_space t hall) ?_
      exact all_digits_head_not_space t.reverse (by rw [List.all_reverse]; exact hall)
    rw [hstrip, if_pos ⟨hne, hall⟩]
    rfl
  · have hcont : (ws ++ t).contains '.' = true := by
      have : '.' ∈ ws ++ t := by
        refine List.mem_append.mpr (Or.inr ?_)
        rw [hteq]
        exact List.mem_append.mpr (Or.inr (List.mem_cons_self _ _))
      exact List.elem_iff.mpr this
    rw [pyNum, hcont]
    simp only [if_true]
    rw [pyFloat]
    have hstrip : stripWs (ws ++ t) = t := by
      refine stripWs_space_append ws t hws ?_ ?_
      · intro c hc
        rw [hteq] at hc
        cases d with
        | nil => exact absurd rfl hdne
        | cons a as =>
          injection hc with hc
          subst hc
          simp only [List.all_cons, Bool.and_eq_true] at hdall
          exact digit_not_space _ hdall.1
      · intro c hc
        rw [hteq, List.reverse_append, List.reverse_cons] at hc
        have hfr : f.reverse ≠ [] := by
          intro hnil
          exact hfne (by simpa using congrArg List.reverse hnil)
        cases hfrev : f.reverse with
        | nil => exact absurd hfrev hfr
        | cons a as =>
          rw [hfrev, List.append_assoc, List.cons_append] at hc
          injection hc with hc
          subst hc
          have : a ∈ f := by
            rw [← List.mem_reverse, hfrev]
            exact List.mem_cons_self _ _
          exact digit_not_space _ (List.all_eq_true.mp hfall _ this)
    rw [hstrip, hteq]
    obtain ⟨htk, hdr⟩ := takeWhile_ne_dot_append d f hdall
    rw [htk, hdr]
    simp [hdne, hdall, hfall]

theorem numAll_ok (gs : List (List Char))
    (h : ∀ g ∈ gs, (pyNum g).isSome = true) :
    ∃ vals, numAll gs = .ok vals ∧ vals.length = gs.length := by
  induction gs with
  | nil => exact ⟨[], rfl, rfl⟩
  | cons g gs ih =>
    obtain ⟨vals, hok, hlen⟩ := ih fun g2 hg2 => h g2 (List.mem_cons_of_mem g hg2)
    have hg := h g (List.mem_cons_self g gs)
    cases hn : pyNum g with
    | none => rw [hn] at hg; exact Bool.noConfusion hg
    | some v =>
      refine ⟨v :: vals, ?_, by simp [hlen]⟩
      rw [numAll, hn, hok]

theorem matchChunks_groups_parse (ks : List Chunk) (cs : List Char)
    (gs : List (List Char)) (r : List Char)
    (h : matchChunks ks cs = some (gs, r)) :
    ∀ g ∈ gs, (pyNum g).isSome = true := by
  intro g hg
  obtain ⟨ws, t, hgeq, hws, ht⟩ := matchChunks_groups ks cs gs r h g hg
  rw [hgeq]
  exact pyNum_group_isSome ws t hws ht

theorem processEntries_first_match (cfg : ParserCfg) (line : List Char) :
    ∀ st : Registry, (∃ e ∈ st, (matchChunks e.1.chunks line).isSome = true) →
      ∃ reg f ds vs, processEntries cfg line st = .ok (some (reg, f, ds, vs)) := by
  intro st
  induction st with
  | nil =>
    intro h
    obtain ⟨e, hmem, _⟩ := h
    exact absurd hmem (List.not_mem_nil _)
  | cons hd rest ih =>
    intro h
    obtain ⟨f, old⟩ := hd
    rw [processEntries]
    cases hm : matchChunks f.chunks line with
    | some gr =>
      obtain ⟨gs, r2⟩ := gr
      obtain ⟨vals, hok, _⟩ := numAll_ok gs
        (matchChunks_groups_parse f.chunks line gs r2 hm)
      dsimp only
      rw [hok]
      exact ⟨_, _, _, _, rfl⟩
    | none =>
      have hrest : ∃ e ∈ rest, (matchChunks e.1.chunks line).isSome = true := by
        obtain ⟨e, hmem, hsome⟩ := h
        rcases List.mem_cons.mp hmem with heq | hmem2
        · subst heq
          rw [hm] at hsome
          exact Bool.noConfusion hsome
        · exact ⟨e, hmem2, hsome⟩
      obtain ⟨reg, f2, ds, vs, hok⟩ := ih hrest
      dsimp only
      rw [hok]
      exact ⟨_, _, _, _, rfl⟩

/-- C8: whenever some registered shape's pattern matches the line,
`process` completes without error, returning deltas: each captured group —
whitespace run included — parses as an `int` (no decimal point) or
`float` (decimal point), so every per-position subtraction is defined and
the conversion-error branch is unreachable. -/
theorem C8_match_total (cfg : ParserCfg) (st : Registry) (line : List Char)
    (h : ∃ e ∈ st, (matchChunks e.1.chunks line).isSome = true) :
    (∃ st2 f ds vs, Parser.process cfg st line = .ok (st2, f, some ds, vs)) ∧
    ∀ e ∈ st, ∀ gs r, matchChunks e.1.chunks line = some (gs, r) →
      ∀ g ∈ gs, (pyNum g).isSome = true := by
  constructor
  · obtain ⟨reg, f, ds, vs, hok⟩ := processEntries_first_match cfg line st h
    rw [Parser.process, hok]
    exact ⟨_, _, _, _, rfl⟩
  · intro e _ gs r hm
    exact matchChunks_groups_parse e.1.chunks line gs r hm

/-- C8 witness: the registry learned from `"a 1"` matches `"a 2"`. -/
theorem C8_match_total_witness :
    (∃ st2 f ds vs,
      Parser.process ⟨true, false, false⟩
          [(⟨[Chunk.str ['a'], Chunk.num ⟨[' '], false, true, false, 2, none⟩],
            false⟩, [Value.vint 1])] (strL "a 2") = .ok (st2, f, some ds, vs)) ∧
    ∀ e ∈ ([(⟨[Chunk.str ['a'],
          Chunk.num ⟨[' '], false, true, false, 2, none⟩], false⟩,
        [Value.vint 1])] : Registry),
      ∀ gs r, matchChunks e.1.chunks (strL "a 2") = some (gs, r) →
        ∀ g ∈ gs, (pyNum g).isSome = true :=
  C8_match_total ⟨true, false, false⟩
    [(⟨[Chunk.str ['a'], Chunk.num ⟨[' '], false, true, false, 2, none⟩],
      false⟩, [Value.vint 1])] (strL "a 2")
    ⟨_, List.mem_cons_self _ _, by decide⟩

/-- C5 (amended): matching is anchored at the start of the line but needs
not consume it entirely: whenever a shape's pattern matches a (possibly
proper) prefix of the line, `process` on a registry headed by that shape
treats the line as a match — its groups parse, deltas are produced, and in
relative mode the stored values are replaced. -/
theorem C5_prefix_match_suffices (cfg : ParserCfg) (f : Format)
    (old : List Value) (tail : Registry) (line : List Char)
    (gs : List (List Char)) (r : List Char)
    (hm : matchChunks f.chunks line = some (gs, r)) :
    ∃ vals, numAll gs = .ok vals ∧
      Parser.process cfg ((f, old) :: tail) line =
        .ok ((f, if cfg.absolute then old else vals) :: tail, f,
          some (List.zipWith Value.sub vals old), vals) := by
  obtain ⟨vals, hok, _⟩ := numAll_ok gs
    (matchChunks_groups_parse f.chunks line gs r hm)
  refine ⟨vals, hok, ?_⟩
  rw [Parser.process, processEntries, hm]
  dsimp only
  rw [hok]

/-- C5 witness: the learned shape of `"a 1"` matches the proper prefix
`"a 12"` of `"a 12 grams"`, and `process` treats it as a match. -/
theorem C5_prefix_match_suffices_witness :
    ∃ vals, numAll [strL " 12"] = .ok vals ∧
      Parser.process ⟨true, false, false⟩
          [(⟨[Chunk.str ['a'], Chunk.num ⟨[' '], false, true, false, 2, none⟩],
            false⟩, [Value.vint 1])] (strL "a 12 grams") =
        .ok ([(⟨[Chunk.str ['a'],
            Chunk.num ⟨[' '], false, true, false, 2, none⟩], false⟩,
            if (⟨true, false, false⟩ : ParserCfg).absolute then [Value.vint 1]
            else vals)], ⟨[Chunk.str ['a'],
            Chunk.num ⟨[' '], false, true, false, 2, none⟩], false⟩,
          some (List.zipWith Value.sub vals [Value.vint 1]), vals) :=
  C5_prefix_match_suffices ⟨true, false, false⟩
    ⟨[Chunk.str ['a'], Chunk.num ⟨[' '], false, true, false, 2, none⟩], false⟩
    [Value.vint 1] [] (strL "a 12 grams") [strL " 12"] (strL " grams") rfl

/-! ## Digit-free lines -/

theorem numGroupCandidates_nil (cs : List Char)
    (hdf : ∀ c ∈ cs, c.isDigit = false) : numGroupCandidates cs = [] := by
  have hds : (cs.dropWhile pyIsSpace).takeWhile Char.isDigit = [] := by
    cases hdw : cs.dropWhile pyIsSpace with
    | nil => rfl
    | cons c r =>
      have hc : c ∈ cs := by
        have hmem : c ∈ cs.dropWhile pyIsSpace := by
          rw [hdw]
          exact List.mem_cons_self _ _
        exact (List.dropWhile_sublist pyIsSpace).subset hmem
      simp [List.takeWhile_cons, hdf c hc]
  unfold numGroupCandidates
  dsimp only
  rw [hds]
  rfl

theorem matchChunksF_digitFree :
    ∀ (ks : List Chunk) (fuel : Nat) (cs : List Char)
      (gs : List (List Char)) (r : List Char),
      (∀ c ∈ cs, c.isDigit = false) →
      matchChunksF fuel ks cs = some (gs, r) →
      gs = [] ∧ numericCount ks = 0 ∧ cs = literalText ks ++ r := by
  intro ks
  induction ks with
  | nil =>
    intro fuel cs gs r hdf h
    cases fuel with
    | zero =>
      rw [matchChunksF] at h
      injection h with h
      injection h with h1 h2
      exact ⟨h1.symm, rfl, h2⟩
    | succ fuel =>
      rw [matchChunksF] at h
      injection h with h
      injection h with h1 h2
      exact ⟨h1.symm, rfl, h2⟩
  | cons k ks ih =>
    intro fuel cs gs r hdf h
    cases fuel with
    | zero => exact Option.noConfusion h
    | succ fuel =>
      cases k with
      | str s =>
        rw [matchChunksF] at h
        split at h
        · rename_i hpre
          have hcs : cs = s ++ cs.drop s.length := by
            obtain ⟨t, ht⟩ := List.isPrefixOf_iff_prefix.mp hpre
            rw [← ht, List.drop_left]
          have hdf2 : ∀ c ∈ cs.drop s.length, c.isDigit = false := fun c hc =>
            hdf c (List.drop_subset _ _ hc)
          obtain ⟨h1, h2, h3⟩ := ih fuel _ gs r hdf2 h
          refine ⟨h1, by simpa [numericCount] using h2, ?_⟩
          rw [literalText, List.append_assoc, ← h3]
          exact hcs
        · exact Option.noConfusion h
      | num nc =>
        rw [matchChunksF] at h
        rw [numGroupCandidates_nil cs hdf] at h
        exact Option.noConfusion h

theorem formatChunks_literal (ks : List Chunk) (vs : List Value) (uc : Bool)
    (h : numericCount ks = 0) :
    formatChunks ks vs uc = some (literalText ks) := by
  induction ks generalizing vs with
  | nil => rfl
  | cons k ks ih =>
    cases k with
    | str s =>
      rw [formatChunks, ih vs (by simpa [numericCount] using h), literalText]
      rfl
    | num nc => simp [numericCount] at h

theorem literalText_map_plain (ks : List Chunk) :
    literalText (ks.map Chunk.plain) = literalText ks ∧
    numericCount (ks.map Chunk.plain) = numericCount ks := by
  induction ks with
  | nil => exact ⟨rfl, rfl⟩
  | cons k ks ih =>
    cases k with
    | str s =>
      simp only [List.map_cons, Chunk.plain, literalText, numericCount]
      exact ⟨by rw [ih.1], ih.2⟩
    | num nc =>
      simp only [List.map_cons, Chunk.plain, literalText, numericCount]
      exact ⟨ih.1, by rw [ih.2]⟩

theorem pySplitF_digitFree :
    ∀ (fuel : Nat) (cs : List Char), (∀ c ∈ cs, c.isDigit = false) →
      pySplitF fuel cs = ([], cs) := by
  intro fuel
  induction fuel with
  | zero => intro cs _; rfl
  | succ fuel ih =>
    intro cs hdf
    cases cs with
    | nil => rfl
    | cons c cs =>
      rw [pySplitF]
      rw [if_neg (by simp [hdf c (List.mem_cons_self _ _)])]
      by_cases hsp : pyIsSpace c
      · rw [if_pos hsp]
        dsimp only
        cases hdw : (c :: cs).dropWhile pyIsSpace with
        | nil =>
          dsimp only
          have hta := List.takeWhile_append_dropWhile (p := pyIsSpace)
            (l := c :: cs)
          rw [hdw, List.append_nil] at hta
          rw [hta]
        | cons d r =>
          dsimp only
          have hd : d ∈ c :: cs :=
            (List.dropWhile_sublist pyIsSpace).subset (by
              rw [hdw]; exact List.mem_cons_self _ _)
          rw [if_neg (by simp [hdf d hd])]
          have hdfr : ∀ x ∈ d :: r, x.isDigit = false := fun x hx =>
            hdf x ((List.dropWhile_sublist pyIsSpace).subset (hdw ▸ hx))
          rw [ih (d :: r) hdfr]
          rw [consPrefix]
          have hta := List.takeWhile_append_dropWhile (p := pyIsSpace)
            (l := c :: cs)
          rw [hdw] at hta
          rw [hta]
      · rw [if_neg hsp]
        rw [ih cs fun x hx => hdf x (List.mem_cons_of_mem _ hx)]
        rfl

theorem parse_digitFree (cfg : ParserCfg) (st : Registry) (line : List Char)
    (hdf : ∀ c ∈ line, c.isDigit = false) :
    Parser.parse cfg st line = .ok
      (st ++ [(⟨if line.isEmpty = true then [] else [.str line],
        cfg.useColors⟩, [])],
       Format.plain ⟨if line.isEmpty = true then [] else [.str line],
        cfg.useColors⟩, none, []) := by
  have hsplit : pySplit line = ([], line) := pySplitF_digitFree _ line hdf
  rw [Parser.parse]
  simp only [hsplit, buildChunks, List.map_nil, List.nil_append]
  rfl

theorem processEntries_digitFree (cfg : ParserCfg) (line : List Char)
    (hdf : ∀ c ∈ line, c.isDigit = false) :
    ∀ st : Registry,
      processEntries cfg line st = .ok none ∨
      ∃ pre e suf, st = pre ++ e :: suf ∧
        numericCount e.1.chunks = 0 ∧ literalText e.1.chunks <+: line ∧
        processEntries cfg line st =
          .ok (some (pre ++ (e.1, if cfg.absolute then e.2 else []) :: suf,
            e.1, [], [])) := by
  intro st
  induction st with
  | nil => exact Or.inl rfl
  | cons hd rest ih =>
    obtain ⟨f, old⟩ := hd
    cases hm : matchChunks f.chunks line with
    | some gr =>
      obtain ⟨gs, r⟩ := gr
      obtain ⟨hgs, hcount, hline⟩ :=
        matchChunksF_digitFree f.chunks f.chunks.length line gs r hdf hm
      subst hgs
      refine Or.inr ⟨[], (f, old), rest, rfl, hcount, ⟨r, hline.symm⟩, ?_⟩
      rw [processEntries, hm]
      rfl
    | none =>
      rcases ih with hnone | ⟨pre, e, suf, hst, hcount, hpre, hok⟩
      · refine Or.inl ?_
        rw [processEntries, hm, hnone]
      · refine Or.inr ⟨(f, old) :: pre, e, suf, by rw [hst, List.cons_append],
          hcount, hpre, ?_⟩
        rw [processEntries, hm, hok]
        rfl

/-- C4 (counterexample): the literal line `"ab"` is learned and rendered,
but on its second observation with `skipZeroDeltas = true` and
`showOriginal = false` it produces no output at all: its empty delta list
counts as "all deltas zero", so skip-zero suppression applies to it. -/
theorem C4_skipzero_counterexample :
    (do
      let r1 ← Parser.process ⟨true, false, false⟩ [] (strL "ab")
      let o1 ← Printer.makeOutput ⟨false, false, false, true, strL "NOW"⟩
        r1.2.1 r1.2.2.1 r1.2.2.2
      let r2 ← Parser.process ⟨true, false, false⟩ r1.1 (strL "ab")
      let o2 ← Printer.makeOutput ⟨false, false, false, true, strL "NOW"⟩
        r2.2.1 r2.2.2.1 r2.2.2.2
      (Except.ok (o1, o2) : Except String _)) = .ok ([strL "ab"], []) ∧
    ([] : List (List Char)) ≠ [strL "ab"] :=
  ⟨rfl, by decide⟩

/-- C4 (amended): a line with zero numeric tokens always renders as pure
literal text whenever output is produced — when freshly learned it renders
exactly as the line itself, and when matched it renders the matched
shape's literal text (a prefix of the line, the line itself when matched
by its own shape) — but with `skipZeroDeltas` on and `showOriginal` off, a
matched digit-free line is suppressed entirely: its empty delta list is
vacuously all-zero, so it is not exempt from skip-zero logic. -/
theorem C4_literal_lines (cfg : ParserCfg) (prc : PrinterCfg) (st : Registry)
    (line : List Char) (hdf : ∀ c ∈ line, c.isDigit = false) :
    (∃ st2 fmt, Parser.process cfg st line = .ok (st2, fmt, none, []) ∧
      Printer.makeOutput prc fmt none [] =
        .ok [Printer.printLine prc line]) ∨
    (∃ st2 fmt, Parser.process cfg st line = .ok (st2, fmt, some [], []) ∧
      numericCount fmt.chunks = 0 ∧ literalText fmt.chunks <+: line ∧
      Printer.makeOutput prc fmt (some []) [] =
        .ok (if prc.orig = false ∧ prc.skipZeros = true then []
             else [Printer.printLine prc (literalText fmt.chunks)])) := by
  rcases processEntries_digitFree cfg line hdf st with hnone |
    ⟨pre, e, suf, hst, hcount, hpre, hok⟩
  · have hcount0 : numericCount (if line.isEmpty = true then ([] : List Chunk)
        else [.str line]) = 0 := by
      cases hline : line.isEmpty <;> rfl
    have hlit : literalText (if line.isEmpty = true then ([] : List Chunk)
        else [.str line]) = line := by
      cases hline : line.isEmpty
      · simp [literalText]
      · rw [List.isEmpty_iff.mp hline]
        rfl
    have hfmt : Format.format (Format.plain
        ⟨if line.isEmpty = true then [] else [.str line], cfg.useColors⟩)
        [] = some line := by
      rw [Format.format, Format.plain]
      dsimp only
      rw [Option.getD_none]
      rw [formatChunks_literal _ [] false
        (by rw [(literalText_map_plain _).2]; exact hcount0)]
      rw [(literalText_map_plain _).1, hlit]
    refine Or.inl ⟨st ++ [(⟨if line.isEmpty = true then [] else [.str line],
        cfg.useColors⟩, [])],
      Format.plain ⟨if line.isEmpty = true then [] else [.str line],
        cfg.useColors⟩, ?_, ?_⟩
    · rw [Parser.process, hnone]
      exact parse_digitFree cfg st line hdf
    · rw [Printer.makeOutput]
      rw [hfmt]
  · refine Or.inr ⟨pre ++ (e.1, if cfg.absolute then e.2 else []) :: suf,
      e.1, ?_, hcount, hpre, ?_⟩
    · rw [Parser.process, hok]
    · have hfmt : Format.format e.1 [] =
          some (literalText e.1.chunks) := by
        rw [Format.format]
        exact formatChunks_literal e.1.chunks [] _ hcount
      rw [Printer.makeOutput]
      cases horig : prc.orig with
      | true =>
        rw [if_pos rfl]
        rw [if_neg (by simp)]
        rw [hfmt]
        simp [horig]
      | false =>
        rw [if_neg (by simp)]
        cases hskip : prc.skipZeros with
        | true =>
          rw [if_neg (by simp)]
          simp [horig, hskip]
        | false =>
          rw [if_pos (by simp)]
          rw [hfmt]
          simp [horig, hskip]

/-- C4 witness: the digit-free line `"ab"` against the empty registry. -/
theorem C4_literal_lines_witness :
    (∃ st2 fmt, Parser.process ⟨true, false, false⟩ [] (strL "ab") =
        .ok (st2, fmt, none, []) ∧
      Printer.makeOutput ⟨false, false, false, false, strL "NOW"⟩ fmt none [] =
        .ok [Printer.printLine ⟨false, false, false, false, strL "NOW"⟩
          (strL "ab")]) ∨
    (∃ st2 fmt, Parser.process ⟨true, false, false⟩ [] (strL "ab") =
        .ok (st2, fmt, some [], []) ∧
      numericCount fmt.chunks = 0 ∧ literalText fmt.chunks <+: strL "ab" ∧
      Printer.makeOutput ⟨false, false, false, false, strL "NOW"⟩ fmt
          (some []) [] =
        .ok (if (⟨false, false, false, false, strL "NOW"⟩ : PrinterCfg).orig
              = false ∧
            (⟨false, false, false, false, strL "NOW"⟩ : PrinterCfg).skipZeros
              = true then []
          else [Printer.printLine ⟨false, false, false, false, strL "NOW"⟩
            (literalText fmt.chunks)])) :=
  C4_literal_lines ⟨true, false, false⟩ ⟨false, false, false, false, strL "NOW"⟩
    [] (strL "ab") (by decide)

/-! ## Decimal digit strings -/

theorem charVal_lt_ten (c : Char) (h : c.isDigit = true) : charVal c < 10 := by
  simp [Char.isDigit] at h
  have h1 : 48 ≤ c.toNat := h.1
  have h2 : c.toNat ≤ 57 := h.2
  simp only [charVal]
  omega

theorem digitChar_charVal (c : Char) (h : c.isDigit = true) :
    digitChar (charVal c) = c := by
  simp [Char.isDigit] at h
  have h1 : 48 ≤ c.toNat := h.1
  rw [digitChar, charVal, show 48 + (c.toNat - 48) = c.toNat by omega]
  exact Char.ofNat_toNat c

theorem charVal_zero (c : Char) (h : c.isDigit = true) (hv : charVal c = 0) :
    c = '0' := by
  have hd := digitChar_charVal c h
  rw [hv] at hd
  exact hd.symm

theorem rawDigits_zero : rawDigits 0 = [] := by
  simp [rawDigits]

theorem rawDigits_succ (n : Nat) (h : 0 < n) :
    rawDigits n = rawDigits (n / 10) ++ [digitChar (n % 10)] := by
  rw [rawDigits, Nat.digits_def' (by norm_num : (1:Nat) < 10) h]
  simp [rawDigits]

theorem rawDigits_ne_nil (n : Nat) (h : n ≠ 0) : rawDigits n ≠ [] := by
  rw [rawDigits]
  simp [Nat.digits_ne_nil_iff_ne_zero.mpr h]

theorem rawDigits_length (n : Nat) :
    (rawDigits n).length = (Nat.digits 10 n).length := by
  simp [rawDigits]

theorem natDigitsAux_eq (fuel n : Nat) (h : n < fuel) :
    natDigitsAux fuel n = rawDigits n := by
  induction fuel generalizing n with
  | zero => omega
  | succ fuel ih =>
    cases n with
    | zero => rw [natDigitsAux, rawDigits_zero]
    | succ m =>
      rw [natDigitsAux, ih ((m + 1) / 10) (by omega),
        ← rawDigits_succ (m + 1) (Nat.succ_pos m)]

theorem natDigits_eq (n : Nat) :
    natDigits n = if n = 0 then ['0'] else rawDigits n := by
  rw [natDigits]
  by_cases h : n = 0
  · rw [if_pos h, if_pos h]
  · rw [if_neg h, if_neg h, natDigitsAux_eq (n + 1) n (Nat.lt_succ_self n)]

theorem leftPad_natDigits_eq_rawDigits (w n : Nat) (hw : 1 ≤ w) :
    leftPad '0' w (natDigits n) = leftPad '0' w (rawDigits n) := by
  rw [natDigits_eq]
  by_cases h : n = 0
  · rw [if_pos h, h, rawDigits_zero, leftPad, leftPad]
    simp only [List.length_singleton, List.length_nil, Nat.sub_zero,
      List.append_nil]
    rw [show w = (w - 1) + 1 by omega, List.replicate_succ']
    congr 2
  · rw [if_neg h]

theorem parseNat_singleton (c : Char) : parseNat [c] = charVal c := by
  simp [parseNat]

theorem parseNat_foldl_shift (ys : List Char) :
    ∀ a : Nat, ys.foldl (fun a c => 10 * a + charVal c) a =
      a * 10 ^ ys.length + parseNat ys := by
  induction ys with
  | nil => intro a; simp [parseNat]
  | cons y ys ih =>
    intro a
    have hy : parseNat (y :: ys) = charVal y * 10 ^ ys.length + parseNat ys := by
      rw [parseNat, List.foldl_cons, ih (10 * 0 + charVal y)]
      ring_nf
    rw [List.foldl_cons, ih (10 * a + charVal y), hy, List.length_cons]
    ring

theorem parseNat_append (xs ys : List Char) :
    parseNat (xs ++ ys) = parseNat xs * 10 ^ ys.length + parseNat ys := by
  rw [parseNat, List.foldl_append, ← parseNat, parseNat_foldl_shift]

theorem parseNat_cons (c : Char) (cs : List Char) :
    parseNat (c :: cs) = charVal c * 10 ^ cs.length + parseNat cs := by
  have h := parseNat_append [c] cs
  rw [List.singleton_append] at h
  rw [h, parseNat_singleton]

theorem parseNat_lt (cs : List Char) (h : cs.all Char.isDigit = true) :
    parseNat cs < 10 ^ cs.length := by
  induction cs with
  | nil => simp [parseNat]
  | cons c cs ih =>
    simp only [List.all_cons, Bool.and_eq_true] at h
    rw [parseNat_cons, List.length_cons, pow_succ]
    have h1 := charVal_lt_ten c h.1
    have h2 := ih h.2
    have h3 : charVal c * 10 ^ cs.length ≤ 9 * 10 ^ cs.length :=
      Nat.mul_le_mul_right _ (by omega)
    have h4 : 0 < 10 ^ cs.length := Nat.pos_pow_of_pos _ (by norm_num)
    omega

theorem leftPad_append_singleton (k : Nat) (xs : List Char) (c y : Char) :
    leftPad c (k + 1) (xs ++ [y]) = leftPad c k xs ++ [y] := by
  rw [leftPad, leftPad]
  simp only [List.length_append, List.length_singleton]
  rw [show k + 1 - (xs.length + 1) = k - xs.length by omega, List.append_assoc]

theorem leftPad_shift_digit (p F : Nat) :
    leftPad '0' (p + 1) (rawDigits F) =
      leftPad '0' p (rawDigits (F / 10)) ++ [digitChar (F % 10)] := by
  by_cases hF : F = 0
  · subst hF
    rw [Nat.zero_div, Nat.zero_mod, rawDigits_zero, leftPad, leftPad]
    simp only [List.length_nil, Nat.sub_zero, List.append_nil]
    rw [List.replicate_succ']
    rfl
  · rw [rawDigits_succ F (Nat.pos_of_ne_zero hF), leftPad_append_singleton]

theorem leftPad_split_digits (p : Nat) :
    ∀ W F : Nat, F < 10 ^ p →
      leftPad '0' (p + 1) (rawDigits (W * 10 ^ p + F)) =
        natDigits W ++ leftPad '0' p (rawDigits F) := by
  induction p with
  | zero =>
    intro W F hF
    interval_cases F
    simp only [pow_zero, Nat.mul_one, Nat.add_zero, rawDigits_zero]
    rw [natDigits_eq]
    by_cases hW : W = 0
    · subst hW
      rw [if_pos rfl, rawDigits_zero]
      rfl
    · rw [if_neg hW]
      have h1 : 1 ≤ (rawDigits W).length := by
        cases hr : rawDigits W with
        | nil => exact absurd hr (rawDigits_ne_nil W hW)
        | cons a as => simp
      rw [leftPad, show 1 - (rawDigits W).length = 0 by omega]
      simp [leftPad]
  | succ p ih =>
    intro W F hF
    by_cases hN : W * 10 ^ (p + 1) + F = 0
    · have hp : 0 < 10 ^ (p + 1) := Nat.pos_pow_of_pos _ (by norm_num)
      have hW : W = 0 := by
        by_contra hW
        have := Nat.le_mul_of_pos_left (10 ^ (p + 1))
          (Nat.pos_of_ne_zero hW)
        omega
      have hF0 : F = 0 := by omega
      subst hW
      subst hF0
      rw [Nat.zero_mul, Nat.zero_add, rawDigits_zero, natDigits_eq,
        if_pos rfl, leftPad, leftPad]
      simp only [List.length_nil, Nat.sub_zero, List.append_nil]
      rw [show p + 1 + 1 = (p + 1) + 1 by rfl, List.replicate_succ]
      rfl
    · have hNpos : 0 < W * 10 ^ (p + 1) + F := Nat.pos_of_ne_zero hN
      have hdiv : (W * 10 ^ (p + 1) + F) / 10 = W * 10 ^ p + F / 10 := by
        rw [pow_succ, ← Nat.mul_assoc]
        omega
      have hmod : (W * 10 ^ (p + 1) + F) % 10 = F % 10 := by
        rw [pow_succ, ← Nat.mul_assoc]
        omega
      rw [rawDigits_succ _ hNpos, hdiv, hmod, leftPad_append_singleton,
        ih W (F / 10) ((Nat.div_lt_iff_lt_mul (by norm_num)).mpr
          (by rw [pow_succ] at hF; exact hF)),
        List.append_assoc, ← leftPad_shift_digit]

theorem leftPad_parseNat_roundtrip (cs : List Char)
    (h : cs.all Char.isDigit = true) :
    leftPad '0' cs.length (rawDigits (parseNat cs)) = cs := by
  induction cs using List.reverseRecOn with
  | nil =>
    rw [show parseNat [] = 0 from rfl, rawDigits_zero]
    rfl
  | append_singleton cs c ih =>
    rw [List.all_append] at h
    simp only [List.all_cons, List.all_nil, Bool.and_true, Bool.and_eq_true]
      at h
    have hv := charVal_lt_ten c h.2
    have hp : parseNat (cs ++ [c]) = 10 * parseNat cs + charVal c := by
      rw [parseNat_append, parseNat_singleton, List.length_singleton, pow_one]
      ring
    rw [hp, List.length_append, List.length_singleton, leftPad_shift_digit,
      show (10 * parseNat cs + charVal c) / 10 = parseNat cs by omega,
      show (10 * parseNat cs + charVal c) % 10 = charVal c by omega,
      ih h.1, digitChar_charVal c h.2]

theorem rawDigits_len_of_bounds (m k : Nat) (h1 : 10 ^ k ≤ m)
    (h2 : m < 10 ^ (k + 1)) : (rawDigits m).length = k + 1 := by
  have hm : m ≠ 0 := by
    have : 0 < 10 ^ k := Nat.pos_pow_of_pos _ (by norm_num)
    omega
  rw [rawDigits_length, Nat.digits_len 10 m (by norm_num) hm,
    Nat.log_eq_of_pow_le_of_lt_pow h1 h2]

theorem natDigits_parseNat_roundtrip (cs : List Char) (hne : cs ≠ [])
    (h : cs.all Char.isDigit = true)
    (hz : cs.length = 1 ∨ ¬cs.head? = some '0') :
    natDigits (parseNat cs) = cs := by
  cases cs with
  | nil => exact absurd rfl hne
  | cons c rest =>
    simp only [List.all_cons, Bool.and_eq_true] at h
    by_cases hrest : rest = []
    · subst hrest
      rw [parseNat_singleton, natDigits_eq]
      by_cases hv : charVal c = 0
      · rw [if_pos hv, charVal_zero c h.1 hv]
      · rw [if_neg hv, rawDigits, Nat.digits_of_lt 10 (charVal c) hv
          (charVal_lt_ten c h.1)]
        simp [digitChar_charVal c h.1]
    · have hlen : 1 < (c :: rest).length := by
        cases rest with
        | nil => exact absurd rfl hrest
        | cons a as => simp
      have hc0 : ¬c = '0' := by
        rcases hz with hz | hz
        · exact absurd (by simpa using hz) hrest
        · intro hc
          subst hc
          exact hz rfl
      have hcv : 1 ≤ charVal c := by
        by_contra hcv
        exact hc0 (charVal_zero c h.1 (by omega))
      have hlow : 10 ^ rest.length ≤ parseNat (c :: rest) := by
        rw [parseNat_cons]
        have := Nat.le_mul_of_pos_left (10 ^ rest.length)
          (show 0 < charVal c by omega)
        omega
      have hhigh : parseNat (c :: rest) < 10 ^ (rest.length + 1) := by
        have := parseNat_lt (c :: rest) (by simp [h.1, h.2])
        simpa using this
      have hlend : (rawDigits (parseNat (c :: rest))).length =
          rest.length + 1 := rawDigits_len_of_bounds _ _ hlow hhigh
      have hnz : parseNat (c :: rest) ≠ 0 := by
        have : 0 < 10 ^ rest.length := Nat.pos_pow_of_pos _ (by norm_num)
        omega
      have hrt := leftPad_parseNat_roundtrip (c :: rest) (by simp [h.1, h.2])
      rw [leftPad] at hrt
      rw [natDigits_eq, if_neg hnz]
      rw [List.length_cons, hlend] at hrt
      simpa using hrt

/-! ## Evaluating `detect` under the parse defaults (`flex = true`) -/

theorem detect_int_normal (s n : List Char) (first : Bool)
    (hmem : ¬('.' ∈ n))
    (hz : ¬(1 < n.length ∧ n.head? = some '0'))
    (hflex : ¬((s ≠ [] ∨ first = true) ∧ effWidth s n < 2)) :
    NumberChunk.detect s n first true =
      ⟨if s.isEmpty then [] else [' '], s.isEmpty && !first, true, false,
        effWidth s n, none⟩ := by
  have hzb : (decide (n.length > 1) && (n.head? == some '0')) = false := by
    by_cases h1 : 1 < n.length
    · have h2 : ¬n.head? = some '0' := fun h => hz ⟨h1, h⟩
      simp [h2]
    · simp [h1]
  have heff : effWidth s n =
      if s = [] then n.length else n.length + (s.length - 1) := by
    simp [effWidth, List.isEmpty_iff]
  simp only [effWidth]
  simp [NumberChunk.detect, hmem, hzb]
  intro h1 h2
  exact absurd ⟨h1, by rw [heff]; exact h2⟩ hflex

theorem detect_int_zeropad (s n : List Char) (first : Bool)
    (hmem : ¬('.' ∈ n)) (hz1 : 1 < n.length) (hz2 : n.head? = some '0') :
    NumberChunk.detect s n first true =
      ⟨if s.isEmpty then [] else [' '], false, true, true,
        effWidth s n, none⟩ := by
  have hzb : (decide (n.length > 1) && (n.head? == some '0')) = true := by
    simp [hz1, hz2]
  have hw : ¬(if s = [] then n.length else n.length + (s.length - 1)) < 2 := by
    split <;> omega
  simp only [effWidth]
  simp [NumberChunk.detect, hmem, hzb]
  intro h1 h2
  exact absurd h2 hw

theorem detect_float_normal (s d f : List Char) (first : Bool)
    (hd : d.all Char.isDigit = true)
    (hmem : '.' ∈ d ++ '.' :: f)
    (hz : ¬(1 < d.length ∧ d.head? = some '0'))
    (hflex : ¬((s ≠ [] ∨ first = true) ∧
      effWidth s (d ++ '.' :: f) < f.length + 3)) :
    NumberChunk.detect s (d ++ '.' :: f) first true =
      ⟨if s.isEmpty then [] else [' '], s.isEmpty && !first, true, false,
        effWidth s (d ++ '.' :: f), some f.length⟩ := by
  obtain ⟨htk, hdr⟩ := takeWhile_ne_dot_append d f hd
  simp only [ne_eq, decide_not] at htk hdr
  have hzb : (decide (d.length > 1) && (d.head? == some '0')) = false := by
    by_cases h1 : 1 < d.length
    · have h2 : ¬d.head? = some '0' := fun h => hz ⟨h1, h⟩
      simp [h2]
    · simp [h1]
  have heff : effWidth s (d ++ '.' :: f) =
      if s = [] then (d ++ '.' :: f).length
      else (d ++ '.' :: f).length + (s.length - 1) := by
    simp [effWidth, List.isEmpty_iff]
  simp only [effWidth]
  simp [NumberChunk.detect, hmem, htk, hdr, hzb]
  intro h1 h2
  refine absurd ⟨h1, ?_⟩ hflex
  rw [heff]
  simpa using h2

theorem detect_float_zeropad (s d f : List Char) (first : Bool)
    (hd : d.all Char.isDigit = true)
    (hmem : '.' ∈ d ++ '.' :: f)
    (hz1 : 1 < d.length) (hz2 : d.head? = some '0') :
    NumberChunk.detect s (d ++ '.' :: f) first true =
      ⟨if s.isEmpty then [] else [' '], false, true, true,
        effWidth s (d ++ '.' :: f), some f.length⟩ := by
  obtain ⟨htk, hdr⟩ := takeWhile_ne_dot_append d f hd
  simp only [ne_eq, decide_not] at htk hdr
  have hzb : (decide (d.length > 1) && (d.head? == some '0')) = true := by
    simp [hz1, hz2]
  have hw : ¬(if s = [] then (d ++ '.' :: f).length
      else (d ++ '.' :: f).length + (s.length - 1)) < f.length + 3 := by
    have hlen : (d ++ '.' :: f).length = d.length + 1 + f.length := by
      simp; omega
    split <;> omega
  simp only [effWidth]
  simp [NumberChunk.detect, hmem, htk, hdr, hzb]
  intro h1 h2
  refine absurd ?_ hw
  simpa using h2

theorem rawDigits_len_le (m k : Nat) (h : m < 10 ^ k) :
    (rawDigits m).length ≤ k := by
  rw [rawDigits_length]
  by_cases hm : m = 0
  · simp [hm]
  · rw [Nat.digits_len 10 m (by norm_num) hm]
    have := Nat.log_lt_of_lt_pow hm h
    omega

theorem leftPad_length (c : Char) (w : Nat) (s : List Char) :
    (leftPad c w s).length = max w s.length := by
  simp [leftPad]
  omega

/-- Evaluating `fixedBody` on the exact value of a parsed decimal token:
when the scaled value is the integer `W·10^p + F` with `F < 10^p`, the
body is the digits of `W`, the point, and `F` zero-padded to `p` digits. -/
theorem fixedBody_eval (W F p : Nat) (hp : 0 < p) (hF : F < 10 ^ p) :
    fixedBody ((W : Rat) + (F : Rat) / (10 : Rat) ^ p) p =
      natDigits W ++ '.' :: leftPad '0' p (rawDigits F) := by
  have hfloor :
      (⌊((W : Rat) + (F : Rat) / (10 : Rat) ^ p) * (10 : Rat) ^ p + 1 / 2⌋ :
        Int) = ((W * 10 ^ p + F : Nat) : Int) := by
    have h10 : ((10 : Rat) ^ p) ≠ 0 := by positivity
    have hq : ((W : Rat) + (F : Rat) / (10 : Rat) ^ p) * (10 : Rat) ^ p
        = (((W * 10 ^ p + F : Nat) : Int) : Rat) := by
      push_cast
      field_simp
    have hhalf : ⌊(1 / 2 : Rat)⌋ = 0 := by
      rw [Int.floor_eq_zero_iff, Set.mem_Ico]
      constructor <;> norm_num
    rw [hq, Int.floor_int_add, hhalf, add_zero]
  rw [fixedBody]
  rw [hfloor, Int.toNat_natCast,
    leftPad_natDigits_eq_rawDigits _ _ (Nat.le_add_left 1 p),
    leftPad_split_digits p W F hF]
  have hB : (leftPad '0' p (rawDigits F)).length = p := by
    rw [leftPad_length]
    have := rawDigits_len_le F p hF
    omega
  have hlen : (natDigits W ++ leftPad '0' p (rawDigits F)).length - p
      = (natDigits W).length := by
    simp [hB]
  rw [if_neg (by omega : ¬p = 0), hlen, List.take_left, List.drop_left]

/-! ## Exact values of parsed tokens -/

theorem pyNum_int_token (n : List Char) (hne : n ≠ [])
    (hall : n.all Char.isDigit = true) :
    pyNum n = some (.vint (parseNat n)) := by
  have hmem : ¬('.' ∈ n) := by
    intro hm
    exact absurd (List.all_eq_true.mp hall _ hm) (by decide)
  have hcont : n.contains '.' = false := contains_eq_false_of_not_mem hmem
  rw [pyNum, hcont]
  simp only [Bool.false_eq_true, if_false]
  have hstrip : stripWs n = n := by
    have h := stripWs_space_append [] n rfl
      (all_digits_head_not_space n hall)
      (all_digits_head_not_space n.reverse (by rw [List.all_reverse]; exact hall))
    rwa [List.nil_append] at h
  rw [pyInt]
  rw [hstrip, if_pos ⟨hne, hall⟩]

theorem pyNum_float_token (d f : List Char) (hdne : d ≠ []) (hfne : f ≠ [])
    (hdall : d.all Char.isDigit = true) (hfall : f.all Char.isDigit = true) :
    pyNum (d ++ '.' :: f) =
      some (.vfloat ((parseNat d : Rat) +
        (parseNat f : Rat) / (10 : Rat) ^ f.length)) := by
  have hcont : (d ++ '.' :: f).contains '.' = true :=
    List.elem_iff.mpr (List.mem_append.mpr (Or.inr (List.mem_cons_self _ _)))
  rw [pyNum, hcont]
  simp only [if_true]
  have hstrip : stripWs (d ++ '.' :: f) = d ++ '.' :: f := by
    have h := stripWs_space_append [] (d ++ '.' :: f) rfl ?_ ?_
    · rwa [List.nil_append] at h
    · intro c hc
      cases d with
      | nil => exact absurd rfl hdne
      | cons a as =>
        injection hc with hc
        subst hc
        simp only [List.all_cons, Bool.and_eq_true] at hdall
        exact digit_not_space _ hdall.1
    · intro c hc
      rw [List.reverse_append, List.reverse_cons] at hc
      cases hfrev : f.reverse with
      | nil =>
        exact absurd (by simpa using congrArg List.reverse hfrev) hfne
      | cons a as =>
        rw [hfrev, List.append_assoc, List.cons_append] at hc
        injection hc with hc
        subst hc
        have hmem : a ∈ f := by
          rw [← List.mem_reverse, hfrev]
          exact List.mem_cons_self _ _
        exact digit_not_space _ (List.all_eq_true.mp hfall _ hmem)
  rw [pyFloat]
  rw [hstrip]
  obtain ⟨htk, hdr⟩ := takeWhile_ne_dot_append d f hdall
  rw [htk, hdr]
  simp [hdne, hdall, hfall]

/-! ## Token rendering round-trip -/

theorem replicate_of_all_space (s : List Char)
    (hs : s.all (fun c => c = ' ') = true) :
    s = List.replicate s.length ' ' :=
  List.eq_replicate_of_mem fun b hb =>
    of_decide_eq_true (List.all_eq_true.mp hs b hb)

theorem vint_cast_not_neg (k : Nat) :
    Value.isNeg (.vint (k : Int)) = false := by
  simp only [Value.isNeg, decide_eq_false_iff_not]
  omega

/-- One-step evaluation of `plain ∘ format1` on an explicit chunk record
with colors off: the prefix, then the padded field. -/
theorem plain_format1_eval (pfxE : List Char) (la zp : Bool) (w : Nat)
    (pr : Option Nat) (v : Value) :
    (NumberChunk.mk pfxE la true zp w pr).plain.format1 v false =
      pfxE ++ padSpec la zp w (if v.isNeg then ['-'] else [])
        ((NumberChunk.mk pfxE la true zp w pr).body v) := rfl

theorem body_none_int (pfxE : List Char) (la pl zp : Bool) (w k : Nat) :
    (NumberChunk.mk pfxE la pl zp w none).body (.vint (k : Int)) =
      natDigits k := rfl

theorem body_some_float (pfxE : List Char) (la pl zp : Bool) (w p : Nat)
    (q : Rat) (hq : 0 ≤ q) :
    (NumberChunk.mk pfxE la pl zp w (some p)).body (.vfloat q) =
      fixedBody q p := by
  show fixedBody |q| p = fixedBody q p
  rw [abs_of_nonneg hq]

theorem padSpec_zeroPad (la : Bool) (w : Nat) (sgn body : List Char) :
    padSpec la true w sgn body =
      sgn ++ List.replicate (w - sgn.length - body.length) '0' ++ body := rfl

theorem padSpec_left (w : Nat) (sgn body : List Char) :
    padSpec true false w sgn body =
      sgn ++ body ++ List.replicate (w - (sgn.length + body.length)) ' ' := rfl

theorem padSpec_right (w : Nat) (sgn body : List Char) :
    padSpec false false w sgn body =
      List.replicate (w - (sgn.length + body.length)) ' ' ++ sgn ++ body := rfl

theorem effWidth_nil (n : List Char) : effWidth [] n = n.length := rfl

theorem effWidth_cons (c : Char) (rest n : List Char) :
    effWidth (c :: rest) n = n.length + rest.length := by
  simp [effWidth]

set_option maxHeartbeats 1600000 in
theorem token_render_int (s n : List Char) (first : Bool)
    (hs : s.all (fun c => c = ' ') = true)
    (hne : n ≠ []) (hall : n.all Char.isDigit = true)
    (hgood : goodToken s n first = true) :
    (NumberChunk.detect s n first true).plain.format1
      (.vint (parseNat n : Int)) false = s ++ n := by
  have hmem : ¬('.' ∈ n) := fun hm =>
    absurd (List.all_eq_true.mp hall _ hm) (by decide)
  have hcont : n.contains '.' = false := contains_eq_false_of_not_mem hmem
  have hsrep := replicate_of_all_space s hs
  have hlen0 : n.length ≠ 0 := fun h => hne (List.length_eq_zero.mp h)
  rw [goodToken, hcont] at hgood
  simp only [Bool.not_false, if_true] at hgood
  obtain ⟨hga, hgif⟩ := cast (Bool.and_eq_true _ _) hgood
  by_cases hzp : 1 < n.length ∧ n.head? = some '0'
  · -- zero-padded branch
    have hzb : (decide (n.length > 1) && (n.head? == some '0')) = true := by
      simp [hzp.1, hzp.2]
    rw [if_pos hzb] at hgif
    have hs1 : s.length ≤ 1 := of_decide_eq_true hgif
    have hroot : List.replicate
        (n.length - (natDigits (parseNat n)).length) '0' ++
        natDigits (parseNat n) = n := by
      have h : leftPad '0' n.length (natDigits (parseNat n)) = n := by
        rw [leftPad_natDigits_eq_rawDigits _ _
          (Nat.one_le_iff_ne_zero.mpr hlen0)]
        exact leftPad_parseNat_roundtrip n hall
      rw [leftPad] at h
      exact h
    rw [detect_int_zeropad s n first hmem hzp.1 hzp.2]
    cases s with
    | nil =>
      rw [plain_format1_eval, body_none_int, effWidth_nil, vint_cast_not_neg,
        if_neg Bool.false_ne_true, padSpec_zeroPad,
        if_pos (show (List.isEmpty ([] : List Char)) = true from rfl)]
      simpa using hroot
    | cons c rest =>
      have hrest : rest = [] := by
        simp only [List.length_cons] at hs1
        exact List.length_eq_zero.mp (by omega)
      subst hrest
      have hc : c = ' ' := by simpa using hsrep
      subst hc
      rw [plain_format1_eval, body_none_int, effWidth_cons, vint_cast_not_neg,
        if_neg Bool.false_ne_true, padSpec_zeroPad,
        if_neg (show ¬(List.isEmpty ([' '] : List Char)) = true by decide)]
      simp only [List.length_nil, Nat.add_zero, Nat.sub_zero, List.nil_append,
        List.singleton_append]
      rw [hroot]
  · -- plain branch
    have hzb : (decide (n.length > 1) && (n.head? == some '0')) = false := by
      cases hh : (n.head? == some '0') with
      | false => simp [hh]
      | true =>
        have h2 : n.head? = some '0' := by simpa using hh
        have h1 : ¬1 < n.length := fun h1 => hzp ⟨h1, h2⟩
        simp [h1]
    rw [if_neg (by simp [hzb])] at hgif
    have hflexB : ((!s.isEmpty || first) &&
        decide (effWidth s n < 2)) = false := by
      cases hb : ((!s.isEmpty || first) && decide (effWidth s n < 2)) with
      | false => rfl
      | true =>
        rw [hb] at hgif
        exact absurd hgif (by decide)
    have hflexP : ¬((s ≠ [] ∨ first = true) ∧ effWidth s n < 2) := by
      rintro ⟨h1, h2⟩
      have hb : (!s.isEmpty || first) = true := by
        rcases h1 with h1 | h1
        · simp [List.isEmpty_iff, h1]
        · simp [h1]
      rw [hb] at hflexB
      simp [h2] at hflexB
    have hrt : natDigits (parseNat n) = n := by
      refine natDigits_parseNat_roundtrip n hne hall ?_
      by_cases h1 : n.length = 1
      · exact Or.inl h1
      · exact Or.inr fun hh => hzp ⟨by omega, hh⟩
    rw [detect_int_normal s n first hmem hzp hflexP]
    cases s with
    | nil =>
      cases first with
      | false =>
        rw [plain_format1_eval, body_none_int, hrt, effWidth_nil,
          vint_cast_not_neg, if_neg Bool.false_ne_true]
        simp only [List.isEmpty_nil, Bool.not_false, Bool.and_self]
        rw [padSpec_left]
        simp
      | true =>
        rw [plain_format1_eval, body_none_int, hrt, effWidth_nil,
          vint_cast_not_neg, if_neg Bool.false_ne_true]
        simp only [List.isEmpty_nil, Bool.not_true, Bool.and_false]
        rw [padSpec_right]
        simp
    | cons c rest =>
      rw [List.length_cons, List.replicate_succ] at hsrep
      injection hsrep with hc hrestrep
      subst hc
      rw [plain_format1_eval, body_none_int, hrt, effWidth_cons,
        vint_cast_not_neg, if_neg Bool.false_ne_true]
      simp only [List.isEmpty_cons, Bool.false_and]
      rw [padSpec_right]
      simp only [List.length_nil, Nat.zero_add, Nat.add_sub_cancel_left,
        List.nil_append]
      rw [← hrestrep]
      simp

theorem vfloat_nonneg_not_neg (q : Rat) (hq : 0 ≤ q) :
    Value.isNeg (.vfloat q) = false := by
  simp only [Value.isNeg, decide_eq_false_iff_not]
  exact not_lt.mpr hq

set_option maxHeartbeats 800000 in
theorem token_render_float (s d f : List Char) (first : Bool)
    (hs : s.all (fun c => c = ' ') = true)
    (hdne : d ≠ []) (hfne : f ≠ [])
    (hdall : d.all Char.isDigit = true) (hfall : f.all Char.isDigit = true)
    (hgood : goodToken s (d ++ '.' :: f) first = true) :
    (NumberChunk.detect s (d ++ '.' :: f) first true).plain.format1
      (.vfloat ((parseNat d : Rat) +
        (parseNat f : Rat) / (10 : Rat) ^ f.length)) false
      = s ++ (d ++ '.' :: f) := by
  have hcmem : '.' ∈ d ++ '.' :: f :=
    List.mem_append.mpr (Or.inr (List.mem_cons_self _ _))
  have hcont : (d ++ '.' :: f).contains '.' = true := List.elem_iff.mpr hcmem
  have hq : 0 ≤ (parseNat d : Rat) +
      (parseNat f : Rat) / (10 : Rat) ^ f.length := by positivity
  have hp : 0 < f.length := List.length_pos.mpr hfne
  have hdlen0 : d.length ≠ 0 := fun h => hdne (List.length_eq_zero.mp h)
  obtain ⟨htk, hdr⟩ := takeWhile_ne_dot_append d f hdall
  have hsrep := replicate_of_all_space s hs
  have hbody : fixedBody ((parseNat d : Rat) +
      (parseNat f : Rat) / (10 : Rat) ^ f.length) f.length
      = natDigits (parseNat d) ++ '.' :: f := by
    rw [fixedBody_eval _ _ _ hp (parseNat_lt f hfall),
      leftPad_parseNat_roundtrip f hfall]
  rw [goodToken, hcont] at hgood
  simp only [Bool.not_true] at hgood
  rw [if_neg Bool.false_ne_true] at hgood
  rw [htk, hdr] at hgood
  simp only [List.drop_succ_cons, List.drop_zero] at hgood
  obtain ⟨hga, hgif⟩ := cast (Bool.and_eq_true _ _) hgood
  by_cases hzp : 1 < d.length ∧ d.head? = some '0'
  · -- zero-padded branch
    have hzb : (decide (d.length > 1) && (d.head? == some '0')) = true := by
      simp [hzp.1, hzp.2]
    rw [if_pos hzb] at hgif
    have hs1 : s.length ≤ 1 := of_decide_eq_true hgif
    have hrootd : List.replicate
        (d.length - (natDigits (parseNat d)).length) '0' ++
        natDigits (parseNat d) = d := by
      have h : leftPad '0' d.length (natDigits (parseNat d)) = d := by
        rw [leftPad_natDigits_eq_rawDigits _ _
          (Nat.one_le_iff_ne_zero.mpr hdlen0)]
        exact leftPad_parseNat_roundtrip d hdall
      rw [leftPad] at h
      exact h
    have hcount : (d ++ '.' :: f).length -
        (natDigits (parseNat d) ++ '.' :: f).length =
        d.length - (natDigits (parseNat d)).length := by
      simp only [List.length_append, List.length_cons]
      omega
    rw [detect_float_zeropad s d f first hdall hcmem hzp.1 hzp.2]
    cases s with
    | nil =>
      rw [plain_format1_eval, body_some_float _ _ _ _ _ _ _ hq, hbody,
        effWidth_nil, vfloat_nonneg_not_neg _ hq,
        if_neg Bool.false_ne_true, padSpec_zeroPad]
      simp only [List.length_nil, Nat.sub_zero, List.nil_append]
      rw [hcount, ← List.append_assoc
        (List.replicate (d.length - (natDigits (parseNat d)).length) '0')
        (natDigits (parseNat d)) ('.' :: f), hrootd]
      simp
    | cons c rest =>
      have hrest : rest = [] := by
        simp only [List.length_cons] at hs1
        exact List.length_eq_zero.mp (by omega)
      subst hrest
      have hc : c = ' ' := by simpa using hsrep
      subst hc
      rw [plain_format1_eval, body_some_float _ _ _ _ _ _ _ hq, hbody,
        effWidth_cons, vfloat_nonneg_not_neg _ hq,
        if_neg Bool.false_ne_true, padSpec_zeroPad]
      simp only [List.length_nil, Nat.add_zero, Nat.sub_zero, List.nil_append]
      rw [hcount, ← List.append_assoc
        (List.replicate (d.length - (natDigits (parseNat d)).length) '0')
        (natDigits (parseNat d)) ('.' :: f), hrootd]
      simp
  · -- plain branch
    have hzb : (decide (d.length > 1) && (d.head? == some '0')) = false := by
      cases hh : (d.head? == some '0') with
      | false => simp [hh]
      | true =>
        have h2 : d.head? = some '0' := by simpa using hh
        have h1 : ¬1 < d.length := fun h1 => hzp ⟨h1, h2⟩
        simp [h1]
    rw [if_neg (by simp [hzb])] at hgif
    have hflexB : ((!s.isEmpty || first) &&
        decide (effWidth s (d ++ '.' :: f) < f.length + 3)) = false := by
      cases hb : ((!s.isEmpty || first) &&
          decide (effWidth s (d ++ '.' :: f) < f.length + 3)) with
      | false => rfl
      | true =>
        rw [hb] at hgif
        exact absurd hgif (by decide)
    have hflexP : ¬((s ≠ [] ∨ first = true) ∧
        effWidth s (d ++ '.' :: f) < f.length + 3) := by
      rintro ⟨h1, h2⟩
      have hb : (!s.isEmpty || first) = true := by
        rcases h1 with h1 | h1
        · simp [List.isEmpty_iff, h1]
        · simp [h1]
      rw [hb] at hflexB
      simp [h2] at hflexB
    have hrtd : natDigits (parseNat d) = d := by
      refine natDigits_parseNat_roundtrip d hdne hdall ?_
      by_cases h1 : d.length = 1
      · exact Or.inl h1
      · exact Or.inr fun hh => hzp ⟨by omega, hh⟩
    rw [hrtd] at hbody
    rw [detect_float_normal s d f first hdall hcmem hzp hflexP]
    cases s with
    | nil =>
      cases first with
      | false =>
        rw [plain_format1_eval, body_some_float _ _ _ _ _ _ _ hq, hbody,
          effWidth_nil, vfloat_nonneg_not_neg _ hq,
          if_neg Bool.false_ne_true]
        simp only [List.isEmpty_nil, Bool.not_false, Bool.and_self]
        rw [padSpec_left]
        simp
      | true =>
        rw [plain_format1_eval, body_some_float _ _ _ _ _ _ _ hq, hbody,
          effWidth_nil, vfloat_nonneg_not_neg _ hq,
          if_neg Bool.false_ne_true]
        simp only [List.isEmpty_nil, Bool.not_true, Bool.and_false]
        rw [padSpec_right]
        simp
    | cons c rest =>
      rw [List.length_cons, List.replicate_succ] at hsrep
      injection hsrep with hc hrestrep
      subst hc
      rw [plain_format1_eval, body_some_float _ _ _ _ _ _ _ hq, hbody,
        effWidth_cons, vfloat_nonneg_not_neg _ hq,
        if_neg Bool.false_ne_true]
      simp only [List.isEmpty_cons, Bool.false_and]
      rw [padSpec_right]
      simp only [List.length_nil, Nat.zero_add, Nat.add_sub_cancel_left,
        List.nil_append]
      rw [← hrestrep]
      simp

/-! ## Structure of the `re.split` tokenization -/

theorem takeNumber_spec (cs n rest : List Char)
    (h : takeNumber cs = some (n, rest)) :
    n ++ rest = cs ∧ n ≠ [] ∧ tokenLike n := by
  have hta := List.takeWhile_append_dropWhile (p := Char.isDigit) (l := cs)
  have hall : (cs.takeWhile Char.isDigit).all Char.isDigit = true :=
    List.all_takeWhile
  simp only [takeNumber] at h
  split at h
  · exact absurd h (by simp)
  next hds =>
    have hdne : cs.takeWhile Char.isDigit ≠ [] := by
      simpa [List.isEmpty_iff] using hds
    split at h
    next r2 heq =>
      have htar2 := List.takeWhile_append_dropWhile
        (p := Char.isDigit) (l := r2)
      have hallf : (r2.takeWhile Char.isDigit).all Char.isDigit = true :=
        List.all_takeWhile
      split at h
      next hfs =>
        injection h with h
        injection h with h1 h2
        subst h1; subst h2
        exact ⟨hta, hdne, Or.inl ⟨hdne, hall⟩⟩
      next hfs =>
        have hfne : r2.takeWhile Char.isDigit ≠ [] := by
          simpa [List.isEmpty_iff] using hfs
        injection h with h
        injection h with h1 h2
        subst h1; subst h2
        rw [heq] at hta
        refine ⟨?_, by simp, Or.inr ⟨cs.takeWhile Char.isDigit,
          r2.takeWhile Char.isDigit, rfl, hdne, hfne, hall, hallf⟩⟩
        rw [List.append_assoc, List.cons_append, htar2]
        exact hta
    next hnodot =>
      injection h with h
      injection h with h1 h2
      subst h1; subst h2
      exact ⟨hta, hdne, Or.inl ⟨hdne, hall⟩⟩

theorem consPrefix_join (x : List Char)
    (res : List (List Char × List Char × List Char) × List Char) :
    joinT (consPrefix x res).1 ++ (consPrefix x res).2 =
      x ++ (joinT res.1 ++ res.2) := by
  obtain ⟨ts, trail⟩ := res
  cases ts with
  | nil => simp [consPrefix, joinT]
  | cons t ts =>
    obtain ⟨p, s, m⟩ := t
    simp [consPrefix, joinT, List.append_assoc]

theorem consPrefix_shape (x : List Char)
    (res : List (List Char × List Char × List Char) × List Char)
    (h : ∀ t ∈ res.1, tokenLike t.2.2) :
    ∀ t ∈ (consPrefix x res).1, tokenLike t.2.2 := by
  obtain ⟨ts, trail⟩ := res
  cases ts with
  | nil => intro t ht; exact absurd ht (by simp [consPrefix])
  | cons hd rest =>
    obtain ⟨p, s, m⟩ := hd
    intro t ht
    rw [consPrefix] at ht
    rcases List.mem_cons.mp ht with h1 | h1
    · subst h1
      exact h (p, s, m) (List.mem_cons_self _ _)
    · exact h t (List.mem_cons_of_mem _ h1)

theorem pySplitF_spec :
    ∀ (fuel : Nat) (cs : List Char), cs.length < fuel →
      joinT (pySplitF fuel cs).1 ++ (pySplitF fuel cs).2 = cs ∧
      ∀ t ∈ (pySplitF fuel cs).1, tokenLike t.2.2 := by
  intro fuel
  induction fuel with
  | zero => intro cs h; omega
  | succ fuel ih =>
    intro cs hcs
    cases cs with
    | nil =>
      exact ⟨rfl, fun t ht => absurd ht (by simp [pySplitF])⟩
    | cons c cs =>
      have hcs2 : cs.length < fuel := by
        simp only [List.length_cons] at hcs
        omega
      rw [pySplitF]
      by_cases hd : c.isDigit = true
      · rw [if_pos hd]
        cases htn : takeNumber (c :: cs) with
        | none =>
          dsimp only
          exact ⟨by simp [joinT], fun t ht => absurd ht (by simp)⟩
        | some pr =>
          obtain ⟨m, rest⟩ := pr
          obtain ⟨hjoin, hmne, htokm⟩ := takeNumber_spec _ _ _ htn
          have hrlen : rest.length < fuel := by
            have := congrArg List.length hjoin
            simp only [List.length_append, List.length_cons] at this
            have hm1 : 1 ≤ m.length := by
              cases m with
              | nil => exact absurd rfl hmne
              | cons a as => simp
            omega
          obtain ⟨ihj, ihs⟩ := ih rest hrlen
          dsimp only
          constructor
          · simp only [joinT, List.nil_append, List.append_assoc]
            rw [ihj, hjoin]
          · intro t ht
            rcases List.mem_cons.mp ht with h1 | h1
            · subst h1; exact htokm
            · exact ihs t h1
      · rw [if_neg hd]
        by_cases hsp : pyIsSpace c = true
        · rw [if_pos hsp]
          dsimp only
          have hta := List.takeWhile_append_dropWhile (p := pyIsSpace)
            (l := c :: cs)
          have hws1 : 1 ≤ ((c :: cs).takeWhile pyIsSpace).length := by
            rw [List.takeWhile_cons_of_pos hsp]
            simp
          cases hdw : (c :: cs).dropWhile pyIsSpace with
          | nil =>
            dsimp only
            rw [hdw, List.append_nil] at hta
            exact ⟨by simpa [joinT] using hta,
              fun t ht => absurd ht (by simp)⟩
          | cons dch r2 =>
            rw [hdw] at hta
            have hrlen : (dch :: r2).length < fuel := by
              have := congrArg List.length hta
              simp only [List.length_append, List.length_cons] at this ⊢
              omega
            dsimp only
            by_cases hdd : dch.isDigit = true
            · rw [if_pos hdd]
              cases htn : takeNumber (dch :: r2) with
              | none =>
                dsimp only
                exact ⟨by simp [joinT], fun t ht => absurd ht (by simp)⟩
              | some pr =>
                obtain ⟨m, rest⟩ := pr
                obtain ⟨hjoin, hmne, htokm⟩ := takeNumber_spec _ _ _ htn
                have hrlen2 : rest.length < fuel := by
                  have := congrArg List.length hjoin
                  simp only [List.length_append, List.length_cons] at this
                  simp only [List.length_cons] at hrlen
                  omega
                obtain ⟨ihj, ihs⟩ := ih rest hrlen2
                dsimp only
                constructor
                · simp only [joinT, List.nil_append, List.append_assoc]
                  rw [ihj, hjoin, hta]
                · intro t ht
                  rcases List.mem_cons.mp ht with h1 | h1
                  · subst h1; exact htokm
                  · exact ihs t h1
            · rw [if_neg hdd]
              obtain ⟨ihj, ihs⟩ := ih (dch :: r2) hrlen
              refine ⟨?_, consPrefix_shape _ _ ihs⟩
              rw [consPrefix_join, ihj, hta]
        · rw [if_neg hsp]
          obtain ⟨ihj, ihs⟩ := ih cs hcs2
          refine ⟨?_, consPrefix_shape _ _ ihs⟩
          rw [consPrefix_join, ihj]
          rfl

/-- The split of a full line: triples reassemble to the line, and every
captured number is a well-formed numeric token. -/
theorem pySplit_spec (line : List Char) :
    joinT (pySplit line).1 ++ (pySplit line).2 = line ∧
    ∀ t ∈ (pySplit line).1, tokenLike t.2.2 :=
  pySplitF_spec (line.length + 1) line (Nat.lt_succ_self _)

/-- A good token parses to a value whose plain rendering reproduces the
spaces and the token text exactly. -/
theorem token_render (s n : List Char) (first : Bool)
    (htok : tokenLike n) (hgood : goodToken s n first = true) :
    ∃ v, pyNum n = some v ∧
      (NumberChunk.detect s n first true).plain.format1 v false = s ++ n := by
  have hs : s.all (fun c => c = ' ') = true :=
    (cast (Bool.and_eq_true _ _) hgood).1
  rcases htok with ⟨hne, hall⟩ | ⟨d, f, hn, hdne, hfne, hdall, hfall⟩
  · exact ⟨_, pyNum_int_token n hne hall,
      token_render_int s n first hs hne hall hgood⟩
  · subst hn
    exact ⟨_, pyNum_float_token d f hdne hfne hdall hfall,
      token_render_float s d f first hs hdne hfne hdall hfall hgood⟩

theorem formatChunks_append (ks1 ks2 : List Chunk) (vs : List Value)
    (uc : Bool) :
    formatChunks (ks1 ++ ks2) vs uc =
      (formatChunks ks1 vs uc).bind fun o1 =>
        (formatChunks ks2 (vs.drop (numericCount ks1)) uc).map
          fun o2 => o1 ++ o2 := by
  induction ks1 generalizing vs with
  | nil =>
    simp only [List.nil_append, formatChunks, numericCount, List.drop_zero,
      Option.bind_eq_bind, Option.some_bind]
    cases formatChunks ks2 vs uc <;> rfl
  | cons k ks ih =>
    cases k with
    | str s =>
      rw [List.cons_append, formatChunks, formatChunks, ih]
      simp only [numericCount]
      cases formatChunks ks vs uc with
      | none => rfl
      | some o1 =>
        cases formatChunks ks2 (vs.drop (numericCount ks)) uc with
        | none => rfl
        | some o2 => simp [List.append_assoc]
    | num nc =>
      cases vs with
      | nil => rfl
      | cons v vs =>
        rw [List.cons_append, formatChunks, formatChunks, ih]
        simp only [numericCount, List.drop_succ_cons]
        cases formatChunks ks vs uc with
        | none => rfl
        | some o1 =>
          cases formatChunks ks2 (vs.drop (numericCount ks)) uc with
          | none => rfl
          | some o2 => simp [List.append_assoc]

/-- Main induction: over good triples, the learned chunks' plain rendering
with the parsed values reassembles the consumed text. -/
theorem chunks_roundtrip :
    ∀ (ts : List (List Char × List Char × List Char)) (first : Bool),
      (∀ t ∈ ts, tokenLike t.2.2) →
      goodTriples first ts = true →
      ∃ vs : List Value,
        numAll (ts.map fun t => t.2.2) = .ok vs ∧
        vs.length = ts.length ∧
        formatChunks ((buildChunks first ts).map Chunk.plain) vs false
          = some (joinT ts) := by
  intro ts
  induction ts with
  | nil => exact fun first _ _ => ⟨[], rfl, rfl, rfl⟩
  | cons t ts ih =>
    obtain ⟨p, s, m⟩ := t
    intro first htok hgood
    rw [goodTriples] at hgood
    obtain ⟨hg1, hg2⟩ := cast (Bool.and_eq_true _ _) hgood
    obtain ⟨v, hv, hrender⟩ := token_render s m (first && p.isEmpty)
      (htok (p, s, m) (List.mem_cons_self _ _)) hg1
    obtain ⟨vs, hnum, hlen, hfmt⟩ :=
      ih false (fun t ht => htok t (List.mem_cons_of_mem _ ht)) hg2
    refine ⟨v :: vs, ?_, by simp [hlen], ?_⟩
    · rw [List.map_cons, numAll, hv, hnum]
    · rw [buildChunks]
      by_cases hp : p.isEmpty = true
      · have hpnil : p = [] := List.isEmpty_iff.mp hp
        subst hpnil
        rw [if_pos hp, List.nil_append, List.map_cons, Chunk.plain,
          formatChunks, hfmt]
        simp only [Option.map_some']
        rw [hrender]
        simp [joinT, List.append_assoc]
      · rw [if_neg hp, List.singleton_append, List.map_cons, List.map_cons,
          Chunk.plain, Chunk.plain, formatChunks, formatChunks, hfmt]
        simp only [Option.map_some']
        rw [hrender]
        simp [joinT, List.append_assoc]

/-- C1 (counterexample): the round-trip does NOT hold for every line under
the default flex-widths configuration.  The single-token line `"5"` is
learned as a first-token right-aligned field that flex widens to width 2,
so the plain render of the freshly learned shape with the observed values
is `" 5"`, not `"5"`. -/
theorem C1_roundtrip_counterexample :
    ∃ st2 fmt values,
      Parser.parse ⟨true, false, false⟩ [] ['5'] =
        .ok (st2, fmt, none, values) ∧
      fmt.format values = some [' ', '5'] ∧ [' ', '5'] ≠ ['5'] :=
  ⟨_, _, _, rfl, rfl, by decide⟩

/-- C1 (amended): for a freshly learned line all of whose split triples are
good — the leading whitespace of each numeric token consists of plain
spaces, zero-padded tokens carry at most one leading space, and no token
triggers the flex widening — `Parser.parse` succeeds and rendering the
returned plain shape with the returned observed values reproduces the
original line exactly.  (The original claim asserted this for every line;
flex widening breaks it, see the counterexample.) -/
theorem C1_plain_roundtrip (cfg : ParserCfg) (st : Registry)
    (line : List Char)
    (hgood : goodTriples true (pySplit line).1 = true) :
    ∃ st2 fmt values,
      Parser.parse cfg st line = .ok (st2, fmt, none, values) ∧
      fmt.format values = some line := by
  obtain ⟨hjoin, hshape⟩ := pySplit_spec line
  rcases hsp : pySplit line with ⟨ts, trail⟩
  rw [hsp] at hjoin hshape hgood
  simp only at hjoin hshape hgood
  obtain ⟨vs, hnum, hlen, hfmt⟩ := chunks_roundtrip ts true hshape hgood
  refine ⟨st ++ [(⟨buildChunks true ts ++
      (if trail.isEmpty then [] else [.str trail]), cfg.useColors⟩, vs)],
    Format.plain ⟨buildChunks true ts ++
      (if trail.isEmpty then [] else [.str trail]), cfg.useColors⟩,
    vs, ?_, ?_⟩
  · rw [Parser.parse, hsp]
    dsimp only
    rw [hnum]
  · rw [Format.plain, Format.format]
    dsimp only
    simp only [Option.getD_none]
    rw [List.map_append, formatChunks_append, hfmt]
    by_cases htr : trail.isEmpty = true
    · have htrnil : trail = [] := List.isEmpty_iff.mp htr
      subst htrnil
      rw [if_pos htr]
      simp only [List.map_nil, formatChunks, Option.map_some',
        Option.bind_eq_bind, Option.some_bind, List.append_nil]
      rw [← hjoin, List.append_nil]
    · rw [if_neg htr]
      simp only [List.map_cons, List.map_nil, Chunk.plain, formatChunks,
        Option.map_some', Option.bind_eq_bind, Option.some_bind,
        List.append_nil]
      rw [← hjoin]

/-- C1 (witness): the good line `"x 42 31.416"` — spaces before both
tokens, widths at or above the flex minima — parses and plain-renders back
to itself. -/
theorem C1_plain_roundtrip_witness :
    goodTriples true (pySplit
      ['x', ' ', '4', '2', ' ', '3', '1', '.', '4', '1', '6']).1 = true ∧
    ∃ st2 fmt values,
      Parser.parse ⟨true, false, true⟩ []
        ['x', ' ', '4', '2', ' ', '3', '1', '.', '4', '1', '6'] =
        .ok (st2, fmt, none, values) ∧
      fmt.format values =
        some ['x', ' ', '4', '2', ' ', '3', '1', '.', '4', '1', '6'] :=
  ⟨by decide, C1_plain_roundtrip ⟨true, false, true⟩ [] _ (by decide)⟩

end Delta
